import Mathlib

/-!
Verification of the todo-tracker repository: a shallow embedding of the
Joplin note-scraping parser (`src/todo/joplin.py`), the HTTP task API
(`src/todo/api.py`), the server-lifecycle CLI (`src/todo/cli.py`) and the
settings loader (`src/todo/settings.py`), together with theorems settling
the documented behavioural claims.

Python strings are modelled as `List Char` (`Str`).  The helpers below
embed the Python string primitives the source uses (`str.strip`,
`str.splitlines`, `str.split`, `str.startswith`, `str.rstrip`).
-/

set_option maxRecDepth 10000

abbrev Str := List Char

/-- Characters stripped by Python's `str.strip()` (Unicode whitespace):
U+0009-U+000D, U+001C-U+001F, space, NEL, NBSP, OGHAM SPACE MARK, the
U+2000-U+200A spaces, LS, PS, NNBSP, MMSP and IDEOGRAPHIC SPACE. -/
def isPySpace (c : Char) : Bool :=
  (0x9 ≤ c.toNat && c.toNat ≤ 0xd) || (0x1c ≤ c.toNat && c.toNat ≤ 0x1f) ||
  c.toNat = 0x20 || c.toNat = 0x85 || c.toNat = 0xa0 || c.toNat = 0x1680 ||
  (0x2000 ≤ c.toNat && c.toNat ≤ 0x200a) ||
  c.toNat = 0x2028 || c.toNat = 0x2029 || c.toNat = 0x202f ||
  c.toNat = 0x205f || c.toNat = 0x3000

/-- Line-boundary characters recognised by Python's `str.splitlines()`:
LF, CR, VT, FF, FS, GS, RS, NEL, LS, PS. -/
def isLineBreak (c : Char) : Bool :=
  c.toNat = 0xa || c.toNat = 0xd || c.toNat = 0xb || c.toNat = 0xc ||
  c.toNat = 0x1c || c.toNat = 0x1d || c.toNat = 0x1e || c.toNat = 0x85 ||
  c.toNat = 0x2028 || c.toNat = 0x2029

/-- Python `str.strip()`: remove leading and trailing whitespace. -/
def pyStrip (s : Str) : Str :=
  ((s.dropWhile isPySpace).reverse.dropWhile isPySpace).reverse

/-- Python `str.splitlines()`: split at line boundaries, `\r\n` counting as
one boundary, with no trailing empty line for a terminal boundary. -/
def pySplitlines : Str → List Str
  | [] => []
  | '\r' :: '\n' :: rest => [] :: pySplitlines rest
  | c :: rest =>
    if isLineBreak c then [] :: pySplitlines rest
    else
      match pySplitlines rest with
      | [] => [[c]]
      | r :: rs => (c :: r) :: rs

/-- Python `str.split(sep)` for a one-character separator: keeps empty
fields, yields `[""]` on the empty string. -/
def pySplitChar (sep : Char) : Str → List Str
  | [] => [[]]
  | c :: rest =>
    if c = sep then [] :: pySplitChar sep rest
    else
      match pySplitChar sep rest with
      | [] => [[c]]
      | r :: rs => (c :: r) :: rs

/-- Python `str.startswith(pre)`. -/
def pyStartswith (pre s : Str) : Bool := pre.isPrefixOf s

/-- Python `str.rstrip('\n')`: drop all trailing newline characters. -/
def pyRstripNl (s : Str) : Str := (s.reverse.dropWhile (· = '\n')).reverse

/-!  ## Task mini-language parser (`parse_tasks`, joplin.py lines 216-232) -/

/-- A parsed task entry: the dict
`{"date": ..., "headline": ..., "context": ...}` built by `parse_tasks`. -/
structure TaskEntry where
  date : Str
  headline : Str
  context : Str
deriving DecidableEq, Repr

/-- The body of the `for line in text.splitlines()` loop of `parse_tasks`,
translated clause by clause from the source. -/
def parseTasksLoop : List Str → List TaskEntry
  | [] => []
  | rawLine :: rest =>
    let line := pyStrip rawLine
    if line.isEmpty || pyStartswith ['#'] line then parseTasksLoop rest
    else
      let parts := (pySplitChar ';' line).map pyStrip
      if parts.length < 2 then parseTasksLoop rest
      else
        let dateStr := parts.getD 0 []
        let headline := parts.getD 1 []
        if dateStr.isEmpty || headline.isEmpty then parseTasksLoop rest
        else
          let context := if 3 ≤ parts.length then parts.getD 2 [] else []
          ⟨dateStr, headline, context⟩ :: parseTasksLoop rest

/-- `parse_tasks` (joplin.py): parse lines of format `date;headline` or
`date;headline;context`. -/
def parse_tasks (text : Str) : List TaskEntry :=
  parseTasksLoop (pySplitlines text)

/-- The per-line rule as the specification words it: trim the line, drop it
if empty or `#`-prefixed; split on `;` and trim every field; require at
least two fields with non-empty date and headline; context is the trimmed
third field if present, else empty. -/
def specEntryOfLine (rawLine : Str) : Option TaskEntry :=
  let l := pyStrip rawLine
  if l = [] then none
  else if l.head? = some '#' then none
  else
    match (pySplitChar ';' l).map pyStrip with
    | d :: h :: rest =>
      if d ≠ [] ∧ h ≠ [] then some ⟨d, h, rest.headD []⟩ else none
    | _ => none

theorem parseTasksLoop_eq_filterMap (ls : List Str) :
    parseTasksLoop ls = ls.filterMap specEntryOfLine := by
  induction ls with
  | nil => rfl
  | cons rawLine rest ih =>
    rw [parseTasksLoop, List.filterMap_cons]
    by_cases hempty : pyStrip rawLine = []
    · simp [specEntryOfLine, hempty, List.isEmpty_iff, ih]
    · by_cases hhash : pyStartswith ['#'] (pyStrip rawLine)
      · have hh : (pyStrip rawLine).head? = some '#' := by
          rcases hl : pyStrip rawLine with _ | ⟨c, cs⟩
          · exact absurd hl hempty
          · rw [hl] at hhash
            simp [pyStartswith, List.isPrefixOf] at hhash
            simp [hhash.symm]
        simp [specEntryOfLine, hempty, hhash, hh, List.isEmpty_iff, ih]
      · have hh : ¬ (pyStrip rawLine).head? = some '#' := by
          rcases hl : pyStrip rawLine with _ | ⟨c, cs⟩
          · exact absurd hl hempty
          · rw [hl] at hhash
            simp [pyStartswith, List.isPrefixOf] at hhash
            simpa using fun h => hhash h.symm
        rcases hparts : (pySplitChar ';' (pyStrip rawLine)).map pyStrip
          with _ | ⟨d, _ | ⟨h, tail⟩⟩
        · simp [specEntryOfLine, hempty, hhash, hh, hparts,
                List.isEmpty_iff, ih]
        · simp [specEntryOfLine, hempty, hhash, hh, hparts,
                List.isEmpty_iff, ih]
        · by_cases hd : d = []
          · simp [specEntryOfLine, hempty, hhash, hh, hparts, hd,
                  List.isEmpty_iff, ih]
          · by_cases hhl : h = []
            · simp [specEntryOfLine, hempty, hhash, hh, hparts, hd, hhl,
                    List.isEmpty_iff, ih]
            · rcases tail with _ | ⟨c3, tl⟩
              · simp [specEntryOfLine, hempty, hhash, hh, hparts, hd, hhl,
                      List.isEmpty_iff, ih]
              · simp [specEntryOfLine, hempty, hhash, hh, hparts, hd, hhl,
                      List.isEmpty_iff, ih]

/-- C1: `parse_tasks` keeps exactly the non-blank, non-`#` lines with at
least two `;`-fields whose trimmed date and headline are non-empty, the
context being the trimmed third field when present and empty otherwise;
on the documented examples it yields the two stated entries, zero entries,
and zero entries respectively. -/
theorem C1_parse_tasks :
    (∀ text : Str,
      parse_tasks text = (pySplitlines text).filterMap specEntryOfLine)
    ∧ parse_tasks ("2024-01-01;Buy milk\n2024-01-02;Call bank;home").toList =
        [⟨("2024-01-01").toList, ("Buy milk").toList, []⟩,
         ⟨("2024-01-02").toList, ("Call bank").toList, ("home").toList⟩]
    ∧ parse_tasks ("bad line no semicolon").toList = []
    ∧ parse_tasks (";headline").toList = [] := by
  refine ⟨fun text => parseTasksLoop_eq_filterMap (pySplitlines text),
          by decide, by decide, by decide⟩

/-!  ## Joplin sync-item format (`_parse_joplin_item` / `_rebuild_joplin_item`,
joplin.py lines 61-99) -/

/-- The Python exceptions that the orchestrator's `try/except` clauses
distinguish.  `URLError` is a subclass of `OSError`; `JSONDecodeError` is a
subclass of `ValueError`. -/
inductive PyExc where
  | urlError
  | osError
  | jsonDecodeError
  | keyError
  | valueError
deriving DecidableEq, Repr

/-- Matches a full line against the regex `^id: [a-f0-9]{32}\s*$`. -/
def isIdLine (l : Str) : Bool :=
  pyStartswith ("id: ").toList l &&
  ((l.drop 4).take 32).length = 32 &&
  ((l.drop 4).take 32).all (fun c => ('a' ≤ c && c ≤ 'f') || ('0' ≤ c && c ≤ '9')) &&
  ((l.drop 4).drop 32).all isPySpace

/-- Index of the metadata block start: the first line at index `≥ 1`
matching the id pattern, else the number of lines. -/
def metadataStart (lines : List Str) : Nat :=
  if lines.isEmpty then 0 else 1 + (lines.drop 1).findIdx isIdLine

/-- The `key: value` pairs collected from the metadata lines: every line
containing `:` is split at its first `:`, both halves trimmed. -/
def metaPairs (lines : List Str) : List (Str × Str) :=
  lines.filterMap fun l =>
    if l.contains ':' then
      some (pyStrip (l.takeWhile (· ≠ ':')),
            pyStrip ((l.dropWhile (· ≠ ':')).drop 1))
    else none

/-- Python dict lookup with default over insertion-ordered pairs; a later
binding of a key overwrites an earlier one, so the last occurrence wins. -/
def dictGet (pairs : List (Str × Str)) (k dflt : Str) : Str :=
  match pairs.reverse.find? (fun p => p.1 == k) with
  | some p => p.2
  | none => dflt

/-- Python `s or dflt` for strings: the default when `s` is empty. -/
def pyOr (s dflt : Str) : Str := if s = [] then dflt else s

/-- Python `int(s)` on a decimal string literal: optional surrounding
whitespace, optional sign, then digits optionally separated by single
underscores; anything else raises `ValueError`.  (Non-ASCII numerals are
outside the scope of this model.) -/
def pyIntDigits : Nat → Str → Except PyExc Nat
  | acc, [] => .ok acc
  | acc, '_' :: c :: rest =>
    if c.isDigit then pyIntDigits (acc * 10 + (c.toNat - 48)) rest
    else .error .valueError
  | _, ['_'] => .error .valueError
  | acc, c :: rest =>
    if c.isDigit then pyIntDigits (acc * 10 + (c.toNat - 48)) rest
    else .error .valueError

def pyInt (s : Str) : Except PyExc Int :=
  let t := pyStrip s
  match t with
  | '+' :: c :: rest =>
    if c.isDigit then (pyIntDigits 0 (c :: rest)).map Int.ofNat
    else .error .valueError
  | '-' :: c :: rest =>
    if c.isDigit then (pyIntDigits 0 (c :: rest)).map (fun n => -(n : Int))
    else .error .valueError
  | c :: rest =>
    if c.isDigit then (pyIntDigits 0 (c :: rest)).map Int.ofNat
    else .error .valueError
  | [] => .error .valueError

/-- The dict returned by `_parse_joplin_item`. -/
structure JItem where
  title : Str
  body : Str
  type : Int
  id : Str
  parent_id : Str
  metadata_lines : List Str
deriving DecidableEq, Repr

/-- `'\n'.join(ls)`. -/
def joinNl : List Str → Str
  | [] => []
  | [l] => l
  | l :: ls => l ++ '\n' :: joinNl ls

/-- Index at which the body starts: skip blank lines after the title. -/
def bodyStartIdx (lines : List Str) (ms : Nat) : Nat :=
  1 + (((lines.drop 1).take (ms - 1)).takeWhile fun l => pyStrip l = []).length

/-- Index at which the body ends: drop trailing blank lines before the
metadata block (never moving past the body start). -/
def bodyEndIdx (lines : List Str) (ms bs : Nat) : Nat :=
  ms - (((lines.take ms).drop bs).reverse.takeWhile fun l => pyStrip l = []).length

/-- `_parse_joplin_item` (joplin.py): title is the first line; the metadata
block starts at the first `id: <32 hex>` line; the body is everything
strictly between, with blank edges stripped.  `int()` on a malformed
`type_` value raises. -/
def parse_joplin_item (content : Str) : Except PyExc JItem :=
  let lines := pySplitChar '\n' (pyRstripNl content)
  let title := lines.headD []
  let ms := metadataStart lines
  let metadata := metaPairs (lines.drop ms)
  let bs := bodyStartIdx lines ms
  let be := bodyEndIdx lines ms bs
  let body := if bs < be then joinNl ((lines.take be).drop bs) else []
  (pyInt (pyOr (dictGet metadata ("type_").toList ("0").toList) ("0").toList)).map
    fun ty =>
      ⟨title, body, ty,
       dictGet metadata ("id").toList [],
       dictGet metadata ("parent_id").toList [],
       lines.drop ms⟩

/-- `_rebuild_joplin_item` (joplin.py): title, blank line, body (when
non-empty) followed by a blank line, then the metadata lines, with a
trailing newline. -/
def rebuild_joplin_item (title body : Str) (metadata_lines : List Str) : Str :=
  if body ≠ [] then joinNl ([title, [], body, []] ++ metadata_lines) ++ ['\n']
  else joinNl ([title, [], []] ++ metadata_lines) ++ ['\n']

deriving instance DecidableEq for Except

/-- The concrete item text of the claim: 32 `a`s as the hex id, and no
trailing newline. -/
def c2Content : Str :=
  ("Title\n\nBody line\n\nid: ").toList ++ List.replicate 32 'a' ++
    ("\nupdated_time: X").toList

/-- C2 counterexample: on the claim's own example text, parsing succeeds
with the expected fields, but rebuilding appends a trailing newline, so the
round trip is not byte-identical. -/
theorem C2_roundtrip_counterexample :
    parse_joplin_item c2Content =
      .ok ⟨("Title").toList, ("Body line").toList, 0,
           List.replicate 32 'a', [],
           [("id: ").toList ++ List.replicate 32 'a',
            ("updated_time: X").toList]⟩
    ∧ rebuild_joplin_item ("Title").toList ("Body line").toList
        [("id: ").toList ++ List.replicate 32 'a',
         ("updated_time: X").toList] = c2Content ++ ['\n']
    ∧ c2Content ++ ['\n'] ≠ c2Content := by
  refine ⟨by decide, by decide, by decide⟩

/-!  ### Split/join laws used for the round-trip theorem -/

theorem pySplitChar_ne_nil (sep : Char) (s : Str) : pySplitChar sep s ≠ [] := by
  induction s with
  | nil => simp [pySplitChar]
  | cons c rest ih =>
    rw [pySplitChar]
    split
    · simp
    · rcases h : pySplitChar sep rest with _ | ⟨r, rs⟩ <;> simp

theorem pySplitChar_of_not_mem {sep : Char} {s : Str} (h : sep ∉ s) :
    pySplitChar sep s = [s] := by
  induction s with
  | nil => rfl
  | cons c rest ih =>
    rw [pySplitChar]
    rw [List.mem_cons, not_or] at h
    rw [if_neg (fun hc => h.1 hc.symm), ih h.2]

theorem pySplitChar_append_sep {sep : Char} {a : Str} (h : sep ∉ a) (b : Str) :
    pySplitChar sep (a ++ sep :: b) = a :: pySplitChar sep b := by
  induction a with
  | nil => simp [pySplitChar]
  | cons c rest ih =>
    rw [List.mem_cons, not_or] at h
    rw [List.cons_append, pySplitChar, if_neg (fun hc => h.1 hc.symm), ih h.2]

theorem joinNl_cons {l : Str} {ls : List Str} (h : ls ≠ []) :
    joinNl (l :: ls) = l ++ '\n' :: joinNl ls := by
  rcases ls with _ | ⟨x, xs⟩
  · exact absurd rfl h
  · rfl

theorem joinNl_eq_nil_iff {ls : List Str} :
    joinNl ls = [] ↔ ls = [] ∨ ls = [[]] := by
  rcases ls with _ | ⟨x, _ | ⟨y, ys⟩⟩ <;> simp [joinNl]

theorem splitNl_joinNl_append {Ls : List Str} (hne : Ls ≠ [])
    (h : ∀ l ∈ Ls, '\n' ∉ l) (X : Str) :
    pySplitChar '\n' (joinNl Ls ++ '\n' :: X) = Ls ++ pySplitChar '\n' X := by
  induction Ls with
  | nil => exact absurd rfl hne
  | cons l ls ih =>
    rcases ls with _ | ⟨m, ms⟩
    · rw [joinNl, pySplitChar_append_sep (h l (by simp))]
      rfl
    · rw [joinNl_cons (by simp), List.append_assoc, List.cons_append,
          pySplitChar_append_sep (h l (by simp)),
          ih (by simp) (fun x hx => h x (List.mem_cons_of_mem _ hx))]
      rfl

theorem splitNl_joinNl {Ls : List Str} (hne : Ls ≠ [])
    (h : ∀ l ∈ Ls, '\n' ∉ l) :
    pySplitChar '\n' (joinNl Ls) = Ls := by
  induction Ls with
  | nil => exact absurd rfl hne
  | cons l ls ih =>
    rcases ls with _ | ⟨m, ms⟩
    · rw [joinNl, pySplitChar_of_not_mem (h l (by simp))]
    · rw [joinNl_cons (by simp), pySplitChar_append_sep (h l (by simp)),
          ih (by simp) (fun x hx => h x (List.mem_cons_of_mem _ hx))]

theorem findIdx_append_of_forall_false {p : Str → Bool} {xs : List Str}
    (h : ∀ x ∈ xs, p x = false) (ys : List Str) :
    (xs ++ ys).findIdx p = xs.length + ys.findIdx p := by
  induction xs with
  | nil => simp
  | cons x xs ih =>
    rw [List.cons_append, List.findIdx_cons, h x (by simp),
        ih (fun a ha => h a (List.mem_cons_of_mem _ ha))]
    simp [Nat.add_assoc, Nat.add_comm 1]

theorem pyRstripNl_eq_self {x : Str} (h : x.getLast? ≠ some '\n') :
    pyRstripNl x = x := by
  rw [pyRstripNl]
  rcases hr : x.reverse with _ | ⟨c, t⟩
  · simpa using congrArg List.reverse hr.symm
  · have hc : c ≠ '\n' := by
      intro hceq
      apply h
      rw [← List.head?_reverse, hr, hceq]
      rfl
    rw [List.dropWhile_cons, if_neg (by simpa using hc), ← hr,
        List.reverse_reverse]

theorem mem_of_getLast?_eq {α : Type} {l : List α} {x : α}
    (h : l.getLast? = some x) : x ∈ l := by
  induction l with
  | nil => simp at h
  | cons a t ih =>
    rcases t with _ | ⟨b, u⟩
    · simp at h
      simp [h]
    · rw [List.getLast?_cons_cons] at h
      exact List.mem_cons_of_mem _ (ih h)

theorem getLast?_cons_of_ne_nil {α : Type} {a : α} {l : List α} (h : l ≠ []) :
    (a :: l).getLast? = l.getLast? := by
  rw [show a :: l = [a] ++ l from rfl, List.getLast?_append_of_ne_nil _ h]

theorem joinNl_getLast?_ne_nl {Ls : List Str} (hne : Ls ≠ [])
    (hNl : ∀ l ∈ Ls, '\n' ∉ l) (hlast : Ls.getLast? ≠ some []) :
    (joinNl Ls).getLast? ≠ some '\n' := by
  induction Ls with
  | nil => exact absurd rfl hne
  | cons l ls ih =>
    rcases ls with _ | ⟨m, ms⟩
    · intro hcontra
      have hmem : '\n' ∈ l := mem_of_getLast?_eq (by simpa [joinNl] using hcontra)
      exact hNl l (by simp) hmem
    · have hJ : joinNl (m :: ms) ≠ [] := by
        rw [Ne, joinNl_eq_nil_iff]
        rintro (h | h)
        · simp at h
        · rw [show l :: m :: ms = l :: [([] : Str)] from by rw [h],
              List.getLast?_cons_cons] at hlast
          simp at hlast
      rw [joinNl_cons (by simp),
          List.getLast?_append_of_ne_nil _ (by simp),
          getLast?_cons_of_ne_nil hJ]
      exact ih (by simp) (fun x hx => hNl x (List.mem_cons_of_mem _ hx))
        (by rw [List.getLast?_cons_cons] at hlast; exact hlast)

theorem pyRstripNl_append_nl (x : Str) : pyRstripNl (x ++ ['\n']) = pyRstripNl x := by
  simp [pyRstripNl, List.dropWhile_cons]

/-- C2 (amended): for item text of the form title line, blank line, body,
blank line, metadata block starting with an `id: <32 hex>` line, AND ending
in exactly one trailing newline, parsing with `_parse_joplin_item` and
rebuilding with `_rebuild_joplin_item` from the unchanged title, body and
metadata lines reproduces the original text byte-identically.  (Without the
trailing newline the rebuild appends one, see the counterexample.) -/
theorem C2_roundtrip (title : Str) (bodyLines metaLines : List Str) (ty : Int)
    (htitle : '\n' ∉ title)
    (hbody : bodyLines ≠ [])
    (hbodyNl : ∀ l ∈ bodyLines, '\n' ∉ l)
    (hmetaNl : ∀ l ∈ metaLines, '\n' ∉ l)
    (hbodyFirst : pyStrip (bodyLines.headD []) ≠ [])
    (hbodyLast : ∀ x, bodyLines.getLast? = some x → pyStrip x ≠ [])
    (hbodyNoId : ∀ l ∈ bodyLines, isIdLine l = false)
    (hmeta : metaLines ≠ [])
    (hmetaFirst : isIdLine (metaLines.headD []) = true)
    (hmetaLast : metaLines.getLast? ≠ some [])
    (hty : pyInt (pyOr (dictGet (metaPairs metaLines) ("type_").toList
             ("0").toList) ("0").toList) = .ok ty) :
    parse_joplin_item (title ++ '\n' :: '\n' ::
        (joinNl bodyLines ++ '\n' :: '\n' :: (joinNl metaLines ++ ['\n'])))
      = .ok ⟨title, joinNl bodyLines, ty,
             dictGet (metaPairs metaLines) ("id").toList [],
             dictGet (metaPairs metaLines) ("parent_id").toList [],
             metaLines⟩
    ∧ rebuild_joplin_item title (joinNl bodyLines) metaLines
      = title ++ '\n' :: '\n' ::
          (joinNl bodyLines ++ '\n' :: '\n' :: (joinNl metaLines ++ ['\n'])) := by
  have hbodyNe : joinNl bodyLines ≠ [] := by
    rw [Ne, joinNl_eq_nil_iff]
    rintro (h | h)
    · exact hbody h
    · rw [h] at hbodyFirst
      simp [pyStrip] at hbodyFirst
  have hmetaNe : joinNl metaLines ≠ [] := by
    rw [Ne, joinNl_eq_nil_iff]
    rintro (h | h)
    · exact hmeta h
    · rw [h] at hmetaLast
      simp at hmetaLast
  -- Step A: rstrip('\n') removes exactly the final newline.
  have hA : pyRstripNl (title ++ '\n' :: '\n' ::
      (joinNl bodyLines ++ '\n' :: '\n' :: (joinNl metaLines ++ ['\n'])))
      = title ++ '\n' :: '\n' ::
        (joinNl bodyLines ++ '\n' :: '\n' :: joinNl metaLines) := by
    have hshape : title ++ '\n' :: '\n' ::
        (joinNl bodyLines ++ '\n' :: '\n' :: (joinNl metaLines ++ ['\n']))
        = (title ++ '\n' :: '\n' ::
            (joinNl bodyLines ++ '\n' :: '\n' :: joinNl metaLines)) ++ ['\n'] := by
      simp
    rw [hshape, pyRstripNl_append_nl]
    apply pyRstripNl_eq_self
    have hlast1 : (title ++ '\n' :: '\n' ::
        (joinNl bodyLines ++ '\n' :: '\n' :: joinNl metaLines)).getLast?
        = (joinNl metaLines).getLast? := by
      rw [List.getLast?_append_of_ne_nil _ (by simp),
          List.getLast?_cons_cons,
          getLast?_cons_of_ne_nil (by simp),
          List.getLast?_append_of_ne_nil _ (by simp),
          List.getLast?_cons_cons,
          getLast?_cons_of_ne_nil hmetaNe]
    rw [hlast1]
    exact joinNl_getLast?_ne_nl hmeta hmetaNl hmetaLast
  -- Step B: splitting on '\n' recovers the line structure.
  have hB : pySplitChar '\n' (title ++ '\n' :: '\n' ::
      (joinNl bodyLines ++ '\n' :: '\n' :: joinNl metaLines))
      = title :: [] :: (bodyLines ++ [] :: metaLines) := by
    have hshape : title ++ '\n' :: '\n' ::
        (joinNl bodyLines ++ '\n' :: '\n' :: joinNl metaLines)
        = title ++ '\n' :: (([] : Str) ++ '\n' ::
            (joinNl bodyLines ++ '\n' :: (([] : Str) ++ '\n' :: joinNl metaLines))) := by
      simp
    rw [hshape, pySplitChar_append_sep htitle,
        pySplitChar_append_sep (by simp),
        splitNl_joinNl_append hbody hbodyNl,
        pySplitChar_append_sep (by simp),
        splitNl_joinNl hmeta hmetaNl]
  -- Useful decompositions of the line list.
  have hsplitL : title :: [] :: (bodyLines ++ [] :: metaLines)
      = (title :: [] :: (bodyLines ++ [[]])) ++ metaLines := by simp
  have hdropL : ([] : Str) :: (bodyLines ++ [] :: metaLines)
      = (([] : Str) :: (bodyLines ++ [[]])) ++ metaLines := by simp
  -- Step C: index of the metadata block.
  have hms : metadataStart (title :: [] :: (bodyLines ++ [] :: metaLines))
      = bodyLines.length + 3 := by
    rw [metadataStart]
    simp only [List.isEmpty_cons, List.drop_succ_cons, List.drop_zero,
      Bool.false_eq_true, if_false]
    rw [hdropL, findIdx_append_of_forall_false]
    · rcases metaLines with _ | ⟨m, ms⟩
      · exact absurd rfl hmeta
      · rw [List.findIdx_cons]
        simp only [List.headD_cons] at hmetaFirst
        rw [hmetaFirst]
        simp
        omega
    · intro x hx
      rcases List.mem_cons.mp hx with rfl | hx2
      · decide
      · rcases List.mem_append.mp hx2 with hx3 | hx4
        · exact hbodyNoId x hx3
        · rcases List.mem_singleton.mp hx4 with rfl
          decide
  constructor
  · -- parse side
    rw [parse_joplin_item]
    simp only [hA, hB, hms]
    have hdrop : (title :: [] :: (bodyLines ++ [] :: metaLines)).drop
        (bodyLines.length + 3) = metaLines := by
      rw [hsplitL, List.drop_left' (by simp)]
    have hbs : bodyStartIdx (title :: [] :: (bodyLines ++ [] :: metaLines))
        (bodyLines.length + 3) = 2 := by
      rw [bodyStartIdx]
      simp only [List.drop_succ_cons, List.drop_zero]
      have h31 : bodyLines.length + 3 - 1 = bodyLines.length + 2 := by omega
      rw [h31, hdropL, List.take_left' (by simp)]
      rw [List.takeWhile_cons, if_pos (by decide)]
      rcases hbl : bodyLines with _ | ⟨b, brest⟩
      · exact absurd hbl hbody
      · rw [hbl] at hbodyFirst
        simp only [List.headD_cons] at hbodyFirst
        rw [List.cons_append, List.takeWhile_cons,
            if_neg (by simpa using hbodyFirst)]
        rfl
    have hbe : bodyEndIdx (title :: [] :: (bodyLines ++ [] :: metaLines))
        (bodyLines.length + 3) 2 = bodyLines.length + 2 := by
      rw [bodyEndIdx]
      rw [hsplitL, List.take_left' (by simp)]
      simp only [List.drop_succ_cons, List.drop_zero]
      rcases hrev : bodyLines.reverse with _ | ⟨x, xs⟩
      · exact absurd (by simpa using congrArg List.reverse hrev) hbody
      · have hx : bodyLines.getLast? = some x := by
          rw [← List.head?_reverse, hrev]
          rfl
        have hxs : pyStrip x ≠ [] := hbodyLast x hx
        rw [List.reverse_append, hrev]
        have hrevs : ([[]] : List Str).reverse = [[]] := rfl
        rw [hrevs, List.singleton_append, List.takeWhile_cons,
            if_pos (by decide), List.takeWhile_cons,
            if_neg (by simpa using hxs)]
        simp
    rw [hdrop, hbs, hbe]
    have hlt : 2 < bodyLines.length + 2 := by
      have := List.length_pos.mpr hbody
      omega
    rw [if_pos hlt]
    have htake : (title :: [] :: (bodyLines ++ [] :: metaLines)).take
        (bodyLines.length + 2) = title :: [] :: bodyLines := by
      have hsh : title :: [] :: (bodyLines ++ [] :: metaLines)
          = (title :: [] :: bodyLines) ++ ([] :: metaLines) := by simp
      rw [hsh, List.take_left' (by simp)]
    rw [htake]
    simp only [List.drop_succ_cons, List.drop_zero, List.headD_cons]
    rw [hty]
    rfl
  · -- rebuild side
    rw [rebuild_joplin_item, if_pos (by simpa using hbodyNe)]
    have h1 : [title, [], joinNl bodyLines, []] ++ metaLines
        = title :: ([] :: (joinNl bodyLines) :: ([] :: metaLines)) := by simp
    rw [h1, joinNl_cons (by simp), joinNl_cons (by simp),
        joinNl_cons (by simp), joinNl_cons hmeta]
    simp

theorem C2_roundtrip_witness :
    parse_joplin_item (("Title").toList ++ '\n' :: '\n' ::
        (joinNl [("Body line").toList] ++ '\n' :: '\n' ::
          (joinNl [("id: ").toList ++ List.replicate 32 'a',
                   ("updated_time: X").toList] ++ ['\n'])))
      = .ok ⟨("Title").toList, joinNl [("Body line").toList], 0,
             dictGet (metaPairs [("id: ").toList ++ List.replicate 32 'a',
                                 ("updated_time: X").toList]) ("id").toList [],
             dictGet (metaPairs [("id: ").toList ++ List.replicate 32 'a',
                                 ("updated_time: X").toList]) ("parent_id").toList [],
             [("id: ").toList ++ List.replicate 32 'a', ("updated_time: X").toList]⟩
    ∧ rebuild_joplin_item ("Title").toList (joinNl [("Body line").toList])
        [("id: ").toList ++ List.replicate 32 'a', ("updated_time: X").toList]
      = ("Title").toList ++ '\n' :: '\n' ::
          (joinNl [("Body line").toList] ++ '\n' :: '\n' ::
            (joinNl [("id: ").toList ++ List.replicate 32 'a',
                     ("updated_time: X").toList] ++ ['\n'])) :=
  C2_roundtrip ("Title").toList [("Body line").toList]
    [("id: ").toList ++ List.replicate 32 'a', ("updated_time: X").toList] 0
    (by decide) (by decide) (by decide) (by decide) (by decide)
    (by intro x hx; simp at hx; subst hx; decide)
    (by decide) (by decide) (by decide) (by decide) (by decide)

/-!  ## Note clearing (`clear_note`, joplin.py lines 188-209)

`clear_note` fetches the note text, computes
`cleared = text[:text.index('\n\n')+2] + text[re.search(boundary).start():]`
and substitutes the two timestamp fields; only the pure text
transformation is modelled here (the HTTP fetch/put around it is not part
of the claims). -/

def isLowerHex (c : Char) : Bool :=
  ('a' ≤ c && c ≤ 'f') || ('0' ≤ c && c ≤ '9')

/-- First index whose suffix satisfies `P` (the scan both `str.index` and
`re.search` perform for the fixed patterns used here). -/
def findMatchIdx (P : Str → Bool) : Str → Option Nat
  | [] => if P [] then some 0 else none
  | c :: rest =>
    if P (c :: rest) then some 0 else (findMatchIdx P rest).map (· + 1)

/-- `text.index(pat)` / `text.find(pat)`: first occurrence of a substring. -/
def pyIndexSub (pat s : Str) : Option Nat :=
  findMatchIdx (fun t => pyStartswith pat t) s

/-- The suffix matches the regex `\n\nid: [a-f0-9]{32}` at its start. -/
def metaBoundaryHere (s : Str) : Bool :=
  pyStartswith ("\n\nid: ").toList s &&
  ((s.drop 6).take 32).length = 32 &&
  ((s.drop 6).take 32).all isLowerHex

theorem length_dropWhile_le (p : Char → Bool) (l : Str) :
    (l.dropWhile p).length ≤ l.length := by
  induction l with
  | nil => simp
  | cons a t ih =>
    rw [List.dropWhile_cons]
    split
    · exact Nat.le_trans ih (by simp)
    · exact Nat.le_refl _

/-- `re.sub(r'(?<=MARKER).*', now, s)` for a marker `'\n' :: w`: after each
occurrence of the marker, the run of non-newline characters following it is
replaced by `now`.  Written with a fuel argument (the input length) so that
it is structurally recursive; each step consumes at least one character, so
the fuel never runs out.  (The guard `marker ≠ []` is vacuous for the two
fixed markers `clear_note` uses.) -/
def reSubAux (marker now : Str) : Nat → Str → Str
  | 0, s => s
  | _, [] => []
  | fuel + 1, c :: rest =>
    if marker.isPrefixOf (c :: rest) ∧ marker ≠ [] then
      marker ++ now ++
        reSubAux marker now fuel
          (((c :: rest).drop marker.length).dropWhile (· ≠ '\n'))
    else
      c :: reSubAux marker now fuel rest

def reSubAfterMarker (marker now s : Str) : Str :=
  reSubAux marker now s.length s

/-- The pure text transformation of `clear_note` (joplin.py): both
`text.index('\n\n')` failing and the boundary regex failing raise
`ValueError`. -/
def clearNoteText (text now : Str) : Except PyExc Str :=
  match pyIndexSub ('\n' :: '\n' :: []) text with
  | none => .error .valueError
  | some i =>
    match findMatchIdx metaBoundaryHere text with
    | none => .error .valueError
    | some j =>
      .ok (reSubAfterMarker ("\nuser_updated_time: ").toList now
            (reSubAfterMarker ("\nupdated_time: ").toList now
              (text.take (i + 2) ++ text.drop j)))

/-- The note text of the clear-note scenario: title, non-empty body, then
the metadata block; timestamps `1` and `2`. -/
def c3Text : Str :=
  ("Title\n\nBody\n\nid: ").toList ++ List.replicate 32 'a' ++
    ("\nupdated_time: 1\nuser_updated_time: 2").toList

/-- The text `clear_note` actually produces for `c3Text`. -/
def c3Cleared : Str :=
  ("Title\n\n\n\nid: ").toList ++ List.replicate 32 'a' ++
    ("\nupdated_time: ").toList ++ ("2024-01-01T00:00:00.000Z").toList ++
    ("\nuser_updated_time: ").toList ++ ("2024-01-01T00:00:00.000Z").toList

/-- C3 counterexample: clearing a note with a non-empty body leaves the
title separator AND the boundary match's own leading `\n\n`, so the cleared
text contains three consecutive blank lines between title and metadata —
not "exactly one blank line" as the claim's gloss states (which would make
the blank-line count 1). -/
theorem C3_clear_note_counterexample :
    clearNoteText c3Text ("2024-01-01T00:00:00.000Z").toList = .ok c3Cleared
    ∧ ((pySplitChar '\n' c3Cleared).filter (fun l => l.isEmpty)).length = 3 := by
  exact ⟨by decide, by decide⟩

theorem not_mem_splitChar {sep : Char} :
    ∀ {s l : Str}, l ∈ pySplitChar sep s → sep ∉ l := by
  intro s
  induction s with
  | nil =>
    intro l hl
    simp [pySplitChar] at hl
    simp [hl]
  | cons c rest ih =>
    intro l hl
    rw [pySplitChar] at hl
    by_cases hc : c = sep
    · rw [if_pos hc] at hl
      rcases List.mem_cons.mp hl with rfl | hl2
      · simp
      · exact ih hl2
    · rw [if_neg hc] at hl
      rcases hsp : pySplitChar sep rest with _ | ⟨r, rs⟩
      · exact absurd hsp (pySplitChar_ne_nil sep rest)
      · rw [hsp] at hl
        rcases List.mem_cons.mp hl with rfl | hl2
        · intro hmem
          rcases List.mem_cons.mp hmem with rfl | hmem2
          · exact hc rfl
          · exact ih (hsp ▸ List.mem_cons_self r rs) hmem2
        · exact ih (hsp ▸ List.mem_cons_of_mem r hl2)

theorem pySplitChar_cons_sep (sep : Char) (rest : Str) :
    pySplitChar sep (sep :: rest) = [] :: pySplitChar sep rest := by
  rw [pySplitChar, if_pos rfl]

theorem pySplitChar_cons_ne {sep c : Char} (hc : c ≠ sep) {rest first : Str}
    {rest' : List Str} (hsp : pySplitChar sep rest = first :: rest') :
    pySplitChar sep (c :: rest) = (c :: first) :: rest' := by
  rw [pySplitChar, if_neg hc, hsp]

theorem headD_splitChar (sep : Char) (s : Str) :
    (pySplitChar sep s).headD [] = s.takeWhile (· ≠ sep) := by
  induction s with
  | nil => rfl
  | cons c rest ih =>
    by_cases hc : c = sep
    · subst hc
      rw [pySplitChar_cons_sep]
      simp [List.takeWhile_cons]
    · rcases hsp : pySplitChar sep rest with _ | ⟨r, rs⟩
      · exact absurd hsp (pySplitChar_ne_nil sep rest)
      · rw [pySplitChar_cons_ne hc hsp, List.takeWhile_cons,
            if_pos (by simpa using hc)]
        rw [hsp] at ih
        simpa using ih

theorem dropWhile_ne_nl_shape (t : Str) :
    t.dropWhile (· ≠ '\n') = [] ∨
      ∃ t', t.dropWhile (· ≠ '\n') = '\n' :: t' := by
  induction t with
  | nil => exact Or.inl rfl
  | cons c rest ih =>
    rw [List.dropWhile_cons]
    by_cases hc : c = '\n'
    · subst hc
      simp
    · rw [if_pos (by simpa using hc)]
      exact ih

theorem findMatchIdx_eq_some {P : Str → Bool} :
    ∀ (n : Nat) (s : Str), n ≤ s.length →
      (∀ k < n, P (s.drop k) = false) → P (s.drop n) = true →
      findMatchIdx P s = some n := by
  intro n
  induction n with
  | zero =>
    intro s _ _ hat
    rcases s with _ | ⟨c, rest⟩
    · rw [findMatchIdx, if_pos (by simpa using hat)]
    · rw [findMatchIdx, if_pos (by simpa using hat)]
  | succ n ih =>
    intro s hn hbefore hat
    rcases s with _ | ⟨c, rest⟩
    · simp at hn
    · have h0 : P (c :: rest) = false := by simpa using hbefore 0 (by omega)
      rw [findMatchIdx, if_neg (by simp [h0])]
      have hrec : findMatchIdx P rest = some n := by
        apply ih
        · simpa using hn
        · intro k hk
          have := hbefore (k + 1) (by omega)
          simpa using this
        · simpa using hat
      rw [hrec]
      rfl

/-- The line-wise reading of one lookbehind substitution: every line after
the first that starts with `w` has the remainder of the line replaced by
`now`. -/
def subLinesSpec (w now s : Str) : Str :=
  match pySplitChar '\n' s with
  | [] => []
  | first :: rest =>
    joinNl (first :: rest.map (fun l =>
      if pyStartswith w l then w ++ now else l))

theorem joinNl_cons_cons_head (c : Char) (l : Str) (X : List Str) :
    joinNl ((c :: l) :: X) = c :: joinNl (l :: X) := by
  cases X <;> rfl

theorem prefix_of_prefix_takeWhile {w rest : Str}
    (h : w.isPrefixOf (rest.takeWhile (· ≠ '\n')) = true) :
    w.isPrefixOf rest = true :=
  List.isPrefixOf_iff_prefix.mpr
    ((List.isPrefixOf_iff_prefix.mp h).trans (List.takeWhile_prefix _))

theorem subLinesSpec_eq {w now s : Str} {first : Str} {rest : List Str}
    (h : pySplitChar '\n' s = first :: rest) :
    subLinesSpec w now s = joinNl (first :: rest.map (fun l =>
      if pyStartswith w l then w ++ now else l)) := by
  rw [subLinesSpec, h]

theorem joinNl_nil_cons {X : List Str} (hX : X ≠ []) :
    joinNl ([] :: X) = '\n' :: joinNl X := by
  rw [joinNl_cons hX]
  rfl

theorem reSubAux_eq {w : Str} (now : Str) (hw : '\n' ∉ w) :
    ∀ (fuel : Nat) (s : Str), s.length ≤ fuel →
      reSubAux ('\n' :: w) now fuel s = subLinesSpec w now s := by
  intro fuel
  induction fuel with
  | zero =>
    intro s hs
    have hnil : s = [] := by
      cases s
      · rfl
      · simp at hs
    subst hnil
    rfl
  | succ fuel ih =>
    intro s hs
    rcases s with _ | ⟨c, rest⟩
    · rfl
    · rw [reSubAux]
      by_cases hpre : ('\n' :: w).isPrefixOf (c :: rest) = true
      · rw [if_pos ⟨hpre, by simp⟩]
        have hcw : '\n' = c ∧ w <+: rest := by
          simpa [List.isPrefixOf] using hpre
        obtain ⟨hc, hwrest⟩ := hcw
        subst hc
        obtain ⟨t, rfl⟩ := hwrest
        have hdrop : (('\n' :: (w ++ t)).drop ('\n' :: w).length) = t := by
          simp
        rw [hdrop]
        have hval : ∀ x ∈ t.takeWhile (· ≠ '\n'), x ≠ '\n' := by
          intro x hx
          simpa using List.mem_takeWhile_imp hx
        have htdecomp : t.takeWhile (· ≠ '\n') ++ t.dropWhile (· ≠ '\n') = t :=
          List.takeWhile_append_dropWhile _ t
        rcases dropWhile_ne_nl_shape t with hsh | ⟨t'', hsh⟩
        · -- the marker's line is the last line
          rw [hsh]
          have hz : reSubAux ('\n' :: w) now fuel [] = [] := by
            cases fuel <;> rfl
          rw [hz]
          have htn : '\n' ∉ t := by
            intro hmem
            have := (List.dropWhile_eq_nil_iff.mp hsh) '\n' hmem
            simp at this
          have hsplit : pySplitChar '\n' ('\n' :: (w ++ t)) = [[], w ++ t] := by
            rw [pySplitChar_cons_sep, pySplitChar_of_not_mem (by
              intro hmem
              rcases List.mem_append.mp hmem with h1 | h2
              · exact hw h1
              · exact htn h2)]
          rw [subLinesSpec_eq hsplit]
          have hfw : pyStartswith w (w ++ t) = true :=
            List.isPrefixOf_iff_prefix.mpr (List.prefix_append w t)
          simp [joinNl, hfw]
        · -- there are further lines after the marker's line
          rw [hsh]
          have hlen : ('\n' :: t'').length ≤ fuel := by
            have h1 : ('\n' :: t'').length ≤ t.length := by
              rw [← hsh]
              exact length_dropWhile_le _ t
            have h2 : ('\n' :: (w ++ t)).length ≤ fuel + 1 := hs
            simp only [List.length_cons, List.length_append] at h1 h2 ⊢
            omega
          rw [ih _ hlen]
          have ht : t = t.takeWhile (· ≠ '\n') ++ '\n' :: t'' := by
            rw [← hsh, htdecomp]
          rcases hst : pySplitChar '\n' t'' with _ | ⟨ft, rt⟩
          · exact absurd hst (pySplitChar_ne_nil '\n' t'')
          have hsplitS : pySplitChar '\n' ('\n' :: (w ++ t))
              = [] :: (w ++ t.takeWhile (· ≠ '\n')) :: ft :: rt := by
            rw [pySplitChar_cons_sep]
            have hshape : w ++ t = (w ++ t.takeWhile (· ≠ '\n')) ++ '\n' :: t'' := by
              rw [List.append_assoc, ← ht]
            rw [hshape, pySplitChar_append_sep (by
              intro hmem
              rcases List.mem_append.mp hmem with h1 | h2
              · exact hw h1
              · exact (hval '\n' h2) rfl), hst]
          have hsplitT : pySplitChar '\n' ('\n' :: t'')
              = [] :: ft :: rt := by
            rw [pySplitChar_cons_sep, hst]
          rw [subLinesSpec_eq hsplitS, subLinesSpec_eq hsplitT]
          have hfw : pyStartswith w (w ++ t.takeWhile (· ≠ '\n')) = true :=
            List.isPrefixOf_iff_prefix.mpr (List.prefix_append _ _)
          simp only [List.map_cons, hfw, if_pos]
          rw [joinNl_nil_cons (by simp), joinNl_nil_cons (by simp)]
          nth_rewrite 2 [joinNl_cons (by simp)]
          simp
      · rw [if_neg (by simp [hpre])]
        have hlen2 : rest.length ≤ fuel := by simpa using hs
        rw [ih rest hlen2]
        rcases hsr : pySplitChar '\n' rest with _ | ⟨fr, rr⟩
        · exact absurd hsr (pySplitChar_ne_nil '\n' rest)
        by_cases hc : c = '\n'
        · subst hc
          have hnw : ¬ (w.isPrefixOf rest = true) := by
            intro hcontra
            exact hpre (by simp [List.isPrefixOf, hcontra])
          have hfr : fr = rest.takeWhile (· ≠ '\n') := by
            have := headD_splitChar '\n' rest
            rw [hsr] at this
            simpa using this
          have hnfr : pyStartswith w fr = false := by
            rw [hfr]
            by_contra hcontra
            simp only [Bool.not_eq_false] at hcontra
            exact hnw (prefix_of_prefix_takeWhile hcontra)
          have hsplitC : pySplitChar '\n' ('\n' :: rest) = [] :: fr :: rr := by
            rw [pySplitChar_cons_sep, hsr]
          rw [subLinesSpec_eq hsr, subLinesSpec_eq hsplitC]
          simp only [List.map_cons, hnfr, Bool.false_eq_true, if_false]
          rw [joinNl_nil_cons (by simp)]
        · rw [subLinesSpec_eq hsr, subLinesSpec_eq (pySplitChar_cons_ne hc hsr),
              joinNl_cons_cons_head]

theorem reSubAfterMarker_eq {w : Str} (now : Str) (hw : '\n' ∉ w) (s : Str) :
    reSubAfterMarker ('\n' :: w) now s = subLinesSpec w now s :=
  reSubAux_eq now hw s.length s (Nat.le_refl _)

/-- The combined effect of the two timestamp substitutions, line by line. -/
def specSubLine (now l : Str) : Str :=
  if pyStartswith ("updated_time: ").toList l then
    ("updated_time: ").toList ++ now
  else if pyStartswith ("user_updated_time: ").toList l then
    ("user_updated_time: ").toList ++ now
  else l

/-- The specification's reading of the timestamp bumping: on every line
after the first, a `updated_time: ` / `user_updated_time: ` prefix keeps
its key and has its value replaced by the fresh stamp; everything else is
unchanged. -/
def specSubTimestamps (now s : Str) : Str :=
  match pySplitChar '\n' s with
  | [] => []
  | first :: rest => joinNl (first :: rest.map (specSubLine now))

theorem specSubTimestamps_eq {now s : Str} {first : Str} {rest : List Str}
    (h : pySplitChar '\n' s = first :: rest) :
    specSubTimestamps now s = joinNl (first :: rest.map (specSubLine now)) := by
  rw [specSubTimestamps, h]

theorem not_isPrefixOf_append_of_take_ne {a b x : Str} (n : Nat)
    (hna : n ≤ a.length) (hn : n ≤ b.length) (hne : a.take n ≠ b.take n) :
    a.isPrefixOf (b ++ x) = false := by
  by_contra hcontra
  simp only [Bool.not_eq_false] at hcontra
  obtain ⟨t, hab⟩ := List.isPrefixOf_iff_prefix.mp hcontra
  apply hne
  have h1 : (a ++ t).take n = a.take n := List.take_append_of_le_length hna
  have h2 : ((b ++ x)).take n = b.take n := List.take_append_of_le_length hn
  rw [← h1, hab, h2]

theorem subTimestamps_composition (now s : Str) (hnow : '\n' ∉ now) :
    reSubAfterMarker ("\nuser_updated_time: ").toList now
      (reSubAfterMarker ("\nupdated_time: ").toList now s)
    = specSubTimestamps now s := by
  have hm1 : ("\nupdated_time: ").toList = '\n' :: ("updated_time: ").toList := by
    decide
  have hm2 : ("\nuser_updated_time: ").toList
      = '\n' :: ("user_updated_time: ").toList := by decide
  have hw1 : '\n' ∉ ("updated_time: ").toList := by decide
  have hw2 : '\n' ∉ ("user_updated_time: ").toList := by decide
  rcases hs : pySplitChar '\n' s with _ | ⟨first, rest⟩
  · exact absurd hs (pySplitChar_ne_nil '\n' s)
  rw [hm1, hm2, reSubAfterMarker_eq now hw1 s, subLinesSpec_eq hs]
  have hlines : ∀ l ∈ first :: rest.map (fun l =>
      if pyStartswith ("updated_time: ").toList l then
        ("updated_time: ").toList ++ now else l), '\n' ∉ l := by
    intro l hl
    rcases List.mem_cons.mp hl with rfl | hl2
    · exact not_mem_splitChar (hs ▸ List.mem_cons_self _ _)
    · obtain ⟨l0, hl0, rfl⟩ := List.mem_map.mp hl2
      by_cases hsw : pyStartswith ("updated_time: ").toList l0 = true
      · rw [if_pos hsw]
        intro hmem
        rcases List.mem_append.mp hmem with h1 | h2
        · exact hw1 h1
        · exact hnow h2
      · rw [if_neg hsw]
        exact not_mem_splitChar (hs ▸ List.mem_cons_of_mem _ hl0)
  have hsplit2 : pySplitChar '\n' (joinNl (first :: rest.map (fun l =>
      if pyStartswith ("updated_time: ").toList l then
        ("updated_time: ").toList ++ now else l)))
      = first :: rest.map (fun l =>
          if pyStartswith ("updated_time: ").toList l then
            ("updated_time: ").toList ++ now else l) :=
    splitNl_joinNl (by simp) hlines
  rw [reSubAfterMarker_eq now hw2, subLinesSpec_eq hsplit2,
      specSubTimestamps_eq hs]
  congr 1
  rw [List.map_map]
  congr 1
  apply List.map_congr_left
  intro l hl
  simp only [Function.comp_apply]
  by_cases h1 : pyStartswith ("updated_time: ").toList l = true
  · rw [if_pos h1]
    have hnp : pyStartswith ("user_updated_time: ").toList
        (("updated_time: ").toList ++ now) = false := by
      apply not_isPrefixOf_append_of_take_ne 2
      · decide
      · decide
      · decide
    rw [specSubLine, if_pos h1]
    simp only [pyStartswith] at hnp ⊢
    simp [hnp]
  · rw [if_neg h1]
    rw [specSubLine, if_neg h1]

/-- C3 (amended): for a note text `p ++ "\n\n" ++ q` whose first blank-line
pair follows `p` and whose first metadata-boundary match `\n\nid: <32 hex>`
starts after the prefix `u`, the cleared text is the prefix up to and
including the first `\n\n` concatenated directly with the substring
starting at the metadata-boundary match — so the title separator AND the
match's own leading blank-line pair both remain (two blank-line pairs, not
"exactly one blank line") — with every `updated_time: ` /
`user_updated_time: ` line value replaced by the call-time stamp and all
other lines unchanged. -/
theorem C3_clear_note (p q u hex v now : Str)
    (hp : ∀ k < p.length,
      pyStartswith ('\n' :: '\n' :: []) ((p ++ '\n' :: '\n' :: q).drop k) = false)
    (ht : p ++ '\n' :: '\n' :: q
      = u ++ '\n' :: '\n' :: (("id: ").toList ++ (hex ++ v)))
    (hhexlen : hex.length = 32)
    (hhex : hex.all isLowerHex = true)
    (hu : ∀ k < u.length,
      metaBoundaryHere ((p ++ '\n' :: '\n' :: q).drop k) = false)
    (hnow : '\n' ∉ now) :
    clearNoteText (p ++ '\n' :: '\n' :: q) now
      = .ok (specSubTimestamps now
          ((p ++ ['\n', '\n']) ++
            ('\n' :: '\n' :: (("id: ").toList ++ (hex ++ v))))) := by
  have hi : pyIndexSub ('\n' :: '\n' :: []) (p ++ '\n' :: '\n' :: q)
      = some p.length := by
    apply findMatchIdx_eq_some
    · simp
    · exact hp
    · rw [List.drop_left]
      simp [pyStartswith, List.isPrefixOf]
  have hidlen : ("id: ").toList.length = 4 := by decide
  have hdropu : (p ++ '\n' :: '\n' :: q).drop u.length
      = '\n' :: '\n' :: (("id: ").toList ++ (hex ++ v)) := by
    rw [ht, List.drop_left]
  have hj : findMatchIdx metaBoundaryHere (p ++ '\n' :: '\n' :: q)
      = some u.length := by
    apply findMatchIdx_eq_some
    · rw [ht]
      simp
    · exact hu
    · rw [hdropu, metaBoundaryHere]
      have hpre : pyStartswith ("\n\nid: ").toList
          ('\n' :: '\n' :: (("id: ").toList ++ (hex ++ v))) = true := by
        have hm : ("\n\nid: ").toList = '\n' :: '\n' :: ("id: ").toList := by
          decide
        rw [hm]
        have hshape : '\n' :: '\n' :: (("id: ").toList ++ (hex ++ v))
            = ('\n' :: '\n' :: ("id: ").toList) ++ (hex ++ v) := by simp
        rw [hshape, pyStartswith]
        exact List.isPrefixOf_iff_prefix.mpr (List.prefix_append _ _)
      have hdrop6 : ('\n' :: '\n' :: (("id: ").toList ++ (hex ++ v))).drop 6
          = hex ++ v := by
        rcases hidl : ("id: ").toList with _ | ⟨a, _ | ⟨b, _ | ⟨c, _ | ⟨d, _ | _⟩⟩⟩⟩ <;>
          simp_all
      rw [hpre, hdrop6, List.take_append_of_le_length (by omega),
          List.take_of_length_le (by omega)]
      simp [hhexlen, hhex]
  rw [clearNoteText, hi, hj]
  simp only []
  have htake : (p ++ '\n' :: '\n' :: q).take (p.length + 2)
      = p ++ ['\n', '\n'] := by
    have hshape : p ++ '\n' :: '\n' :: q = (p ++ ['\n', '\n']) ++ q := by simp
    rw [hshape, List.take_left' (by simp)]
  rw [htake, hdropu, subTimestamps_composition _ _ hnow]

theorem C3_clear_note_witness :
    clearNoteText (("Title").toList ++ '\n' :: '\n' ::
        (("Body\n\nid: ").toList ++ List.replicate 32 'a' ++
         ("\nupdated_time: 1\nuser_updated_time: 2").toList))
        (("2024-01-01T00:00:00.000Z").toList)
      = .ok (specSubTimestamps (("2024-01-01T00:00:00.000Z").toList)
          ((("Title").toList ++ ['\n', '\n']) ++
            ('\n' :: '\n' :: (("id: ").toList ++
              (List.replicate 32 'a' ++
               ("\nupdated_time: 1\nuser_updated_time: 2").toList))))) :=
  C3_clear_note ("Title").toList
    (("Body\n\nid: ").toList ++ List.replicate 32 'a' ++
      ("\nupdated_time: 1\nuser_updated_time: 2").toList)
    ("Title\n\nBody").toList (List.replicate 32 'a')
    ("\nupdated_time: 1\nuser_updated_time: 2").toList
    ("2024-01-01T00:00:00.000Z").toList
    (by decide) (by decide) (by decide) (by decide) (by decide) (by decide)

/-!  ## Ingestion orchestrator (`load_from_joplin`, joplin.py lines 239-311)

The HTTP side effects are abstracted into an environment that fixes the
outcome of each remote call; the control flow — which exceptions each
`try/except` clause catches, when the pipeline aborts with 0, how many
POSTs are attempted and whether the note-clear step runs — is translated
directly from the source. -/

/-- The `joplin` entry of `credentials.json`, with the `.get` defaults
already applied (`note_path` defaults to `ingest/todo.txt`, others to
the empty string). -/
structure JoplinConfig where
  url : Str
  email : Str
  password : Str
  note_path : Str
  server_host : Str
deriving DecidableEq, Repr

/-- Outcomes of the remote calls `load_from_joplin` makes, in order:
authentication, note resolution, note fetch, one POST per parsed task
(indexed), and the final note clear. -/
structure JoplinEnv where
  config : Option JoplinConfig
  authResult : Except PyExc Str
  resolveResult : Except PyExc (Option Str)
  fetchResult : Except PyExc Str
  postResult : Nat → Except PyExc Nat
  clearResult : Except PyExc Unit

/-- What `load_from_joplin` did: its return value (or the exception that
escaped it), how many task POSTs it attempted, and whether it called
`clear_note`. -/
structure LoadOutcome where
  result : Except PyExc Nat
  posted : Nat
  clearCalled : Bool
deriving DecidableEq, Repr

/-- `except (urllib.error.URLError, OSError, json.JSONDecodeError, KeyError)`
— the auth and fetch handlers. -/
def caughtByAuthHandler : PyExc → Bool
  | .urlError | .osError | .jsonDecodeError | .keyError => true
  | .valueError => false

/-- `except (urllib.error.URLError, OSError)` — the resolve and clear
handlers (`URLError` is itself an `OSError`). -/
def caughtByNetHandler : PyExc → Bool
  | .urlError | .osError => true
  | _ => false

/-- Successful POSTs: the loop counts responses with status 201; any
exception is caught by its blanket `except Exception` and skipped. -/
def countPosts (f : Nat → Except PyExc Nat) (n : Nat) : Nat :=
  ((List.range n).filter (fun i => decide (f i = .ok 201))).length

/-- `load_from_joplin` (joplin.py): config check, auth, resolve, fetch,
parse, per-task POST loop, best-effort clear, return count. -/
def load_from_joplin (env : JoplinEnv) : LoadOutcome :=
  match env.config with
  | none => ⟨.ok 0, 0, false⟩
  | some config =>
    if config.url = [] ∨ config.email = [] ∨ config.password = [] then
      ⟨.ok 0, 0, false⟩
    else
      match env.authResult with
      | .error e =>
        if caughtByAuthHandler e then ⟨.ok 0, 0, false⟩
        else ⟨.error e, 0, false⟩
      | .ok _token =>
        match env.resolveResult with
        | .error e =>
          if caughtByNetHandler e then ⟨.ok 0, 0, false⟩
          else ⟨.error e, 0, false⟩
        | .ok itemOpt =>
          match itemOpt with
          | none => ⟨.ok 0, 0, false⟩
          | some name =>
            if name = [] then ⟨.ok 0, 0, false⟩
            else
              match env.fetchResult with
              | .error e =>
                if caughtByAuthHandler e then ⟨.ok 0, 0, false⟩
                else ⟨.error e, 0, false⟩
              | .ok text =>
                let tasks := parse_tasks text
                if tasks = [] then ⟨.ok 0, 0, false⟩
                else
                  let count := countPosts env.postResult tasks.length
                  match env.clearResult with
                  | .error e =>
                    if caughtByNetHandler e then ⟨.ok count, tasks.length, true⟩
                    else ⟨.error e, tasks.length, true⟩
                  | .ok _ => ⟨.ok count, tasks.length, true⟩

/-- The concrete run of the C4 counterexample: config complete, auth,
resolve and fetch succeed, the one parsed task POSTs with 201, and
`clear_note` raises the data-format `ValueError`. -/
def c4Env : JoplinEnv :=
  ⟨some ⟨("http://j").toList, ("e@x").toList, ("pw").toList,
         ("ingest/todo.txt").toList, []⟩,
   .ok ("tok").toList,
   .ok (some ("todo.md").toList),
   .ok ("2024-01-01;Task").toList,
   fun _ => .ok 201,
   .error .valueError⟩

/-- C4 counterexample: when `clear_note` raises its data-format
`ValueError` after one task was successfully posted, `load_from_joplin`
does NOT swallow it — the handler only catches `URLError`/`OSError`, so
the `ValueError` escapes to the caller instead of the count 1 being
returned. -/
theorem C4_clear_error_counterexample :
    load_from_joplin c4Env = ⟨.error .valueError, 1, true⟩
    ∧ (load_from_joplin c4Env).result ≠ .ok 1 := by
  exact ⟨by decide, by decide⟩

/-- C4 (amended): if the note-clearing step fails with a transport error
(`URLError`/`OSError`) after the pipeline reached it, the failure is
swallowed and the count of successfully ingested tasks is still returned;
the data-format `ValueError` from `clear_note`, however, propagates (see
the counterexample). -/
theorem C4_clear_swallow (env : JoplinEnv) (config : JoplinConfig)
    (name text : Str) (e : PyExc)
    (hconfig : env.config = some config)
    (hurl : config.url ≠ []) (hemail : config.email ≠ [])
    (hpw : config.password ≠ [])
    (hauth : ∃ tok, env.authResult = .ok tok)
    (hresolve : env.resolveResult = .ok (some name)) (hname : name ≠ [])
    (hfetch : env.fetchResult = .ok text)
    (htasks : parse_tasks text ≠ [])
    (hclear : env.clearResult = .error e)
    (he : e = .urlError ∨ e = .osError) :
    load_from_joplin env
      = ⟨.ok (countPosts env.postResult (parse_tasks text).length),
         (parse_tasks text).length, true⟩ := by
  obtain ⟨tok, hauth⟩ := hauth
  rw [load_from_joplin, hconfig]
  simp only []
  rw [if_neg (by simp [hurl, hemail, hpw]), hauth]
  simp only []
  rw [hresolve]
  simp only []
  rw [if_neg (by simpa using hname), hfetch]
  simp only []
  rw [if_neg (by simpa using htasks), hclear]
  simp only []
  rw [if_pos (by rcases he with rfl | rfl <;> rfl)]

theorem C4_clear_swallow_witness :
    load_from_joplin ⟨some ⟨("http://j").toList, ("e@x").toList,
        ("pw").toList, ("ingest/todo.txt").toList, []⟩,
      .ok ("tok").toList, .ok (some ("todo.md").toList),
      .ok ("2024-01-01;Task").toList, fun _ => .ok 201, .error .osError⟩
      = ⟨.ok (countPosts (fun _ => .ok 201)
            (parse_tasks ("2024-01-01;Task").toList).length),
         (parse_tasks ("2024-01-01;Task").toList).length, true⟩ :=
  C4_clear_swallow _ _ ("todo.md").toList ("2024-01-01;Task").toList .osError
    rfl (by decide) (by decide) (by decide) ⟨("tok").toList, rfl⟩ rfl
    (by decide) rfl (by decide) rfl (Or.inr rfl)

/-- C6: if the fetched note body parses to zero task entries, the pipeline
returns 0, attempts no POST, and never calls `clear_note`. -/
theorem C6_empty_parse (env : JoplinEnv) (config : JoplinConfig)
    (name text : Str)
    (hconfig : env.config = some config)
    (hurl : config.url ≠ []) (hemail : config.email ≠ [])
    (hpw : config.password ≠ [])
    (hauth : ∃ tok, env.authResult = .ok tok)
    (hresolve : env.resolveResult = .ok (some name)) (hname : name ≠ [])
    (hfetch : env.fetchResult = .ok text)
    (htasks : parse_tasks text = []) :
    load_from_joplin env = ⟨.ok 0, 0, false⟩ := by
  obtain ⟨tok, hauth⟩ := hauth
  rw [load_from_joplin, hconfig]
  simp only []
  rw [if_neg (by simp [hurl, hemail, hpw]), hauth]
  simp only []
  rw [hresolve]
  simp only []
  rw [if_neg (by simpa using hname), hfetch]
  simp only []
  rw [if_pos (by simpa using htasks)]

theorem C6_empty_parse_witness :
    load_from_joplin ⟨some ⟨("http://j").toList, ("e@x").toList,
        ("pw").toList, ("ingest/todo.txt").toList, []⟩,
      .ok ("tok").toList, .ok (some ("todo.md").toList),
      .ok [], fun _ => .ok 201, .error .valueError⟩
      = ⟨.ok 0, 0, false⟩ :=
  C6_empty_parse _ _ ("todo.md").toList []
    rfl (by decide) (by decide) (by decide) ⟨("tok").toList, rfl⟩ rfl
    (by decide) rfl (by decide)

/-!  ## Note resolution (`_find_note_item`, joplin.py lines 122-160) -/

/-- Python string `<`: code-point lexicographic comparison. -/
def strLt : Str → Str → Bool
  | [], [] => false
  | [], _ :: _ => true
  | _ :: _, [] => false
  | a :: as, b :: bs => decide (a < b) || (a == b && strLt as bs)

theorem strLt_trans : ∀ a b c : Str,
    strLt a b = true → strLt b c = true → strLt a c = true := by
  intro a
  induction a with
  | nil =>
    intro b c hab hbc
    rcases b with _ | ⟨b1, bs⟩
    · simp [strLt] at hab
    · rcases c with _ | ⟨c1, cs⟩
      · simp [strLt] at hbc
      · simp [strLt]
  | cons a1 as ih =>
    intro b c hab hbc
    rcases b with _ | ⟨b1, bs⟩
    · simp [strLt] at hab
    · rcases c with _ | ⟨c1, cs⟩
      · simp [strLt] at hbc
      · simp only [strLt, Bool.or_eq_true, decide_eq_true_eq,
          Bool.and_eq_true, beq_iff_eq] at hab hbc ⊢
        rcases hab with h1 | ⟨rfl, h2⟩
        · rcases hbc with h3 | ⟨rfl, h4⟩
          · exact Or.inl (lt_trans h1 h3)
          · exact Or.inl h1
        · rcases hbc with h3 | ⟨rfl, h4⟩
          · exact Or.inl h3
          · exact Or.inr ⟨rfl, ih bs cs h2 h4⟩

theorem strLt_connex : ∀ a b : Str,
    (strLt a b || a == b || strLt b a) = true := by
  intro a
  induction a with
  | nil =>
    intro b
    rcases b with _ | ⟨b1, bs⟩ <;> simp [strLt]
  | cons a1 as ih =>
    intro b
    rcases b with _ | ⟨b1, bs⟩
    · simp [strLt]
    · simp only [strLt, Bool.or_eq_true, decide_eq_true_eq,
        Bool.and_eq_true, beq_iff_eq, List.cons.injEq]
      rcases lt_trichotomy a1 b1 with h | heq | h
      · tauto
      · subst heq
        have h3 := ih bs
        simp only [Bool.or_eq_true, beq_iff_eq] at h3
        tauto
      · tauto

theorem strLt_irrefl : ∀ a : Str, strLt a a = false := by
  intro a
  induction a with
  | nil => rfl
  | cons a1 as ih => simp [strLt, ih]

theorem strLePropTrans {a b c : Str} (h1 : strLt a b = true ∨ a = b)
    (h2 : strLt b c = true ∨ b = c) : strLt a c = true ∨ a = c := by
  rcases h1 with h1 | rfl
  · rcases h2 with h2 | rfl
    · exact Or.inl (strLt_trans _ _ _ h1 h2)
    · exact Or.inl h1
  · exact h2

/-- The dict built by `_parse_joplin_item`, as `_find_note_item` uses it. -/
structure FnItem where
  name : Str
  parsed : JItem
deriving DecidableEq, Repr

/-- The sort key of `matches.sort(key=lambda x: (x[1]['body'] == '', x[0]))`:
lexicographic on (body-is-empty, item name), `False < True` on booleans and
code-point order on names. -/
def keyLe (x y : FnItem) : Bool :=
  (!(decide (x.parsed.body = [])) && decide (y.parsed.body = [])) ||
  ((decide (x.parsed.body = []) == decide (y.parsed.body = [])) &&
   (strLt x.name y.name || x.name == y.name))

theorem keyLe_refl (x : FnItem) : keyLe x x = true := by
  simp [keyLe]

theorem keyLe_trans (x y z : FnItem) (h1 : keyLe x y = true)
    (h2 : keyLe y z = true) : keyLe x z = true := by
  simp only [keyLe, Bool.or_eq_true, Bool.and_eq_true, beq_iff_eq,
    decide_eq_decide, Bool.not_eq_true', decide_eq_false_iff_not,
    decide_eq_true_eq] at h1 h2 ⊢
  by_cases hx : x.parsed.body = [] <;> by_cases hy : y.parsed.body = [] <;>
    by_cases hz : z.parsed.body = [] <;> simp_all <;>
    exact strLePropTrans h1 h2

theorem keyLe_total (x y : FnItem) : (keyLe x y || keyLe y x) = true := by
  simp only [keyLe, Bool.or_eq_true, Bool.and_eq_true, beq_iff_eq,
    decide_eq_decide, Bool.not_eq_true', decide_eq_false_iff_not,
    decide_eq_true_eq]
  by_cases hx : x.parsed.body = [] <;> by_cases hy : y.parsed.body = [] <;>
    simp_all
  · have := strLt_connex x.name y.name
    simp only [Bool.or_eq_true, beq_iff_eq] at this
    tauto
  · have := strLt_connex x.name y.name
    simp only [Bool.or_eq_true, beq_iff_eq] at this
    tauto

/-- Python `str.endswith(suf)`. -/
def pyEndswith (suf s : Str) : Bool := suf.isSuffixOf s

/-- One iteration of the `for item in items` loop of `_find_note_item`:
skip non-`.md` names, skip items whose fetch or parse raised (the blanket
`except Exception: continue`), record the folder id of any type-2 item
whose title starts with the notebook name (a later match overwrites an
earlier one), and append any type-1 item whose title equals the requested
note title to the candidate list. -/
def fnStep (notebook_name note_title : Str)
    (acc : Option Str × List FnItem) (item : Str × Except PyExc Str) :
    Option Str × List FnItem :=
  if ¬ pyEndswith (".md").toList item.1 then acc
  else
    match item.2 with
    | .error _ => acc
    | .ok raw =>
      match parse_joplin_item raw with
      | .error _ => acc
      | .ok parsed =>
        (if parsed.type = 2 ∧ pyStartswith notebook_name parsed.title then
           some parsed.id
         else acc.1,
         if parsed.type = 1 ∧ parsed.title = note_title then
           acc.2 ++ [⟨item.1, parsed⟩]
         else acc.2)

def fnScan (notebook_name note_title : Str)
    (items : List (Str × Except PyExc Str)) : Option Str × List FnItem :=
  items.foldl (fnStep notebook_name note_title) (none, [])

/-- `[(n, p) for n, p in candidate_notes if not notebook_name or
p['parent_id'] == folder_id]`. -/
def fnMatches (notebook_name : Str) (folderId : Option Str)
    (cands : List FnItem) : List FnItem :=
  cands.filter (fun x =>
    decide (notebook_name = []) || (some x.parsed.parent_id == folderId))

/-- `_find_note_item` (joplin.py): after the scan, fail if a notebook was
requested but no (truthy) folder id was found; otherwise filter the
candidates, sort them by `(body == '', name)` and return the first name. -/
def find_note_item (notebook_name note_title : Str)
    (items : List (Str × Except PyExc Str)) : Option Str :=
  let scan := fnScan notebook_name note_title items
  if notebook_name ≠ [] ∧ (scan.1 = none ∨ scan.1 = some []) then none
  else
    ((fnMatches notebook_name scan.1 scan.2).mergeSort keyLe).head?.map
      FnItem.name

/-- C5: once past the folder check, `_find_note_item` returns `None`
exactly when the filtered candidate list is empty, and otherwise returns
the name of a candidate whose key `(body-is-empty, name)` is minimal —
candidates with a non-empty body sort before those with an empty body,
ties broken by item name ascending. -/
theorem C5_find_note_item (items : List (Str × Except PyExc Str))
    (notebook_name note_title : Str)
    (hok : ¬ (notebook_name ≠ [] ∧
      ((fnScan notebook_name note_title items).1 = none ∨
       (fnScan notebook_name note_title items).1 = some []))) :
    (find_note_item notebook_name note_title items = none ↔
      fnMatches notebook_name (fnScan notebook_name note_title items).1
        (fnScan notebook_name note_title items).2 = [])
    ∧ (∀ n, find_note_item notebook_name note_title items = some n →
        ∃ entry ∈ fnMatches notebook_name
            (fnScan notebook_name note_title items).1
            (fnScan notebook_name note_title items).2,
          entry.name = n ∧
          ∀ other ∈ fnMatches notebook_name
              (fnScan notebook_name note_title items).1
              (fnScan notebook_name note_title items).2,
            keyLe entry other = true) := by
  simp only [find_note_item]
  rw [if_neg hok]
  set M := fnMatches notebook_name (fnScan notebook_name note_title items).1
    (fnScan notebook_name note_title items).2 with hMdef
  set L := M.mergeSort keyLe with hLdef
  have hperm : L.Perm M := List.mergeSort_perm M keyLe
  have hpw : List.Pairwise (fun a b => keyLe a b = true) L :=
    List.sorted_mergeSort (fun a b c => keyLe_trans a b c) keyLe_total M
  constructor
  · rw [Option.map_eq_none']
    constructor
    · intro h
      have hlen := hperm.length_eq
      rcases hLs : L with _ | ⟨a, t⟩
      · rw [hLs] at hlen
        simp only [List.length_nil] at hlen
        exact List.length_eq_zero.mp hlen.symm
      · rw [hLs] at h
        simp at h
    · intro h
      rw [h] at hperm
      have : L = [] := hperm.eq_nil
      rw [this]
      rfl
  · intro n hn
    obtain ⟨e, he, hen⟩ := Option.map_eq_some'.mp hn
    rcases hLs : L with _ | ⟨a, t⟩
    · rw [hLs] at he
      simp at he
    · rw [hLs] at he
      simp only [List.head?_cons, Option.some.injEq] at he
      subst he
      refine ⟨a, hperm.mem_iff.mp (hLs ▸ List.mem_cons_self a t), hen, ?_⟩
      intro other hother
      have hoL : other ∈ L := hperm.mem_iff.mpr hother
      rw [hLs] at hoL
      rcases List.mem_cons.mp hoL with rfl | htail
      · exact keyLe_refl _
      · exact (List.pairwise_cons.mp (hLs ▸ hpw)).1 other htail

/-- Two notes titled `Note`: `b.md` with a non-empty body and `a.md` with
an empty body. -/
def c5Items : List (Str × Except PyExc Str) :=
  [(("b.md").toList,
    .ok (("Note\n\nBody\n\nid: ").toList ++ List.replicate 32 'b' ++
      ("\ntype_: 1\nparent_id: p1").toList)),
   (("a.md").toList,
    .ok (("Note\n\n\nid: ").toList ++ List.replicate 32 'a' ++
      ("\ntype_: 1").toList))]

theorem C5_find_note_item_witness :
    (find_note_item [] ("Note").toList c5Items = none ↔
      fnMatches [] (fnScan [] ("Note").toList c5Items).1
        (fnScan [] ("Note").toList c5Items).2 = [])
    ∧ (∀ n, find_note_item [] ("Note").toList c5Items = some n →
        ∃ entry ∈ fnMatches [] (fnScan [] ("Note").toList c5Items).1
            (fnScan [] ("Note").toList c5Items).2,
          entry.name = n ∧
          ∀ other ∈ fnMatches [] (fnScan [] ("Note").toList c5Items).1
              (fnScan [] ("Note").toList c5Items).2,
            keyLe entry other = true) :=
  C5_find_note_item c5Items [] ("Note").toList (by simp)

/-!  ## Task CRUD API (`update_task` / `delete_task`, api.py lines 76-105)

The `tasks` table is a list of rows; `SELECT ... WHERE id = ?` with
`fetchone()` is `find?`, `UPDATE ... WHERE id = ?` rewrites every row with
the id, `DELETE ... WHERE id = ?` drops every row with the id.  A raised
`HTTPException(404)` is the `.error` case; the row fetched back after the
`UPDATE` is guaranteed to exist, so the impossible second-fetch failure is
mapped to an (unreachable) error as well. -/

structure TaskRow where
  id : Nat
  date : Str
  headline : Str
  context : Str
deriving DecidableEq, Repr

/-- The request body `TaskIn {date, headline, context?}` (models.py). -/
structure TaskInBody where
  date : Str
  headline : Str
  context : Str
deriving DecidableEq, Repr

/-- The JSON body `{status: "deleted", id}`. -/
structure DeleteResponse where
  status : Str
  id : Nat
deriving DecidableEq, Repr

/-- `PUT /tasks/{task_id}` (api.py): 404 if the id is absent, else replace
date/headline/context of the row and return the re-fetched row. -/
def update_task (db : List TaskRow) (task_id : Nat) (task : TaskInBody) :
    Except Nat TaskRow × List TaskRow :=
  match db.find? (fun r => r.id == task_id) with
  | none => (.error 404, db)
  | some _ =>
    let db' := db.map (fun r =>
      if r.id = task_id then ⟨r.id, task.date, task.headline, task.context⟩
      else r)
    match db'.find? (fun r => r.id == task_id) with
    | some row => (.ok row, db')
    | none => (.error 500, db')

/-- `DELETE /tasks/{task_id}` (api.py): 404 if the id is absent, else drop
the row and answer `{status: "deleted", id}`. -/
def delete_task (db : List TaskRow) (task_id : Nat) :
    Except Nat DeleteResponse × List TaskRow :=
  match db.find? (fun r => r.id == task_id) with
  | none => (.error 404, db)
  | some _ =>
    (.ok ⟨("deleted").toList, task_id⟩,
     db.filter (fun r => decide (¬ r.id = task_id)))

theorem find?_append_cons {α : Type} {p : α → Bool} {pre : List α}
    (h : ∀ x ∈ pre, p x = false) (y : α) (post : List α) (hy : p y = true) :
    (pre ++ y :: post).find? p = some y := by
  induction pre with
  | nil => simp [List.find?_cons, hy]
  | cons a t ih =>
    rw [List.cons_append, List.find?_cons, h a (by simp)]
    exact ih (fun x hx => h x (List.mem_cons_of_mem _ hx))

/-- C8: for an absent id both PUT and DELETE answer 404 and leave the table
unchanged; for a present id (ids unique, as the PRIMARY KEY guarantees)
PUT fully replaces date/headline/context, returns the updated row with
status 200, and DELETE removes exactly that row and returns
`{status: "deleted", id}`. -/
theorem C8_update_delete (db : List TaskRow) (task_id : Nat)
    (task : TaskInBody) :
    ((∀ r ∈ db, r.id ≠ task_id) →
      update_task db task_id task = (.error 404, db) ∧
      delete_task db task_id = (.error 404, db))
    ∧ (∀ pre r post, db = pre ++ r :: post → r.id = task_id →
        (db.map TaskRow.id).Nodup →
        update_task db task_id task
          = (.ok ⟨task_id, task.date, task.headline, task.context⟩,
             pre ++ ⟨task_id, task.date, task.headline, task.context⟩ :: post)
        ∧ delete_task db task_id
          = (.ok ⟨("deleted").toList, task_id⟩, pre ++ post)) := by
  constructor
  · intro habs
    have hfind : db.find? (fun r => r.id == task_id) = none := by
      rw [List.find?_eq_none]
      intro x hx
      simpa using habs x hx
    rw [update_task, hfind, delete_task, hfind]
    exact ⟨rfl, rfl⟩
  · intro pre r post hdb hr hnodup
    subst hdb
    subst hr
    have hpre : ∀ x ∈ pre, x.id ≠ r.id := by
      intro x hx
      have hmap : (pre.map TaskRow.id ++ r.id :: post.map TaskRow.id).Nodup := by
        simpa using hnodup
      have := (List.nodup_append.mp hmap).2.2
      intro heq
      exact this (List.mem_map_of_mem _ hx) (heq ▸ List.mem_cons_self _ _)
    have hpost : ∀ x ∈ post, x.id ≠ r.id := by
      intro x hx
      have hmap : (pre.map TaskRow.id ++ r.id :: post.map TaskRow.id).Nodup := by
        simpa using hnodup
      have hcons := (List.nodup_append.mp hmap).2.1
      intro heq
      exact (List.nodup_cons.mp hcons).1 (heq ▸ List.mem_map_of_mem _ hx)
    have hfind : (pre ++ r :: post).find? (fun x => x.id == r.id) = some r :=
      find?_append_cons (fun x hx => by simpa using hpre x hx) r post
        (by simp)
    constructor
    · rw [update_task, hfind]
      simp only []
      have hmap : (pre ++ r :: post).map (fun x =>
          if x.id = r.id then TaskRow.mk x.id task.date task.headline task.context
          else x)
          = pre ++ ⟨r.id, task.date, task.headline, task.context⟩ :: post := by
        rw [List.map_append, List.map_cons]
        congr 1
        · rw [List.map_congr_left (fun x hx => by
            rw [if_neg (hpre x hx)]), List.map_id']
        · congr 1
          · rw [if_pos rfl]
          · rw [List.map_congr_left (fun x hx => by
              rw [if_neg (hpost x hx)]), List.map_id']
      rw [hmap]
      rw [find?_append_cons (fun x hx => by simpa using hpre x hx) _ post
        (by simp)]
    · rw [delete_task, hfind]
      simp only []
      congr 1
      rw [List.filter_append, List.filter_cons]
      have h1 : (decide ¬(r.id = r.id)) = false := by simp
      rw [h1]
      simp only [Bool.false_eq_true, if_false]
      rw [List.filter_eq_self.mpr (fun x hx => by simpa using hpre x hx),
          List.filter_eq_self.mpr (fun x hx => by simpa using hpost x hx)]

def c8Db : List TaskRow :=
  [⟨1, ("2024-01-01").toList, ("A").toList, []⟩,
   ⟨2, ("2024-01-02").toList, ("B").toList, ("c").toList⟩]

theorem C8_update_delete_witness :
    (update_task c8Db 5 ⟨("2025-01-01").toList, ("N").toList, []⟩
        = (.error 404, c8Db)
     ∧ delete_task c8Db 5 = (.error 404, c8Db))
    ∧ (update_task c8Db 2 ⟨("2025-01-01").toList, ("N").toList, []⟩
        = (.ok ⟨2, ("2025-01-01").toList, ("N").toList, []⟩,
           [⟨1, ("2024-01-01").toList, ("A").toList, []⟩,
            ⟨2, ("2025-01-01").toList, ("N").toList, []⟩])
       ∧ delete_task c8Db 2
        = (.ok ⟨("deleted").toList, 2⟩,
           [⟨1, ("2024-01-01").toList, ("A").toList, []⟩])) :=
  ⟨(C8_update_delete c8Db 5 ⟨("2025-01-01").toList, ("N").toList, []⟩).1
     (by decide),
   (C8_update_delete c8Db 2 ⟨("2025-01-01").toList, ("N").toList, []⟩).2
     [⟨1, ("2024-01-01").toList, ("A").toList, []⟩]
     ⟨2, ("2024-01-02").toList, ("B").toList, ("c").toList⟩ []
     (by decide) rfl (by decide)⟩

/-!  ## Server lifecycle (`_handle_serve`, cli.py lines 94-193)

An abstract OS view: the PID file (absent, present-but-unparsable, or
holding a pid), the liveness probe `os.kill(pid, 0)` (true when it does
not raise), and the `ss` port lookup.  The `start` action (cli.py lines
165-177) and `_start_server` (lines 141-163) both guard only on
`_read_pid()`; `_pid_from_port` is consulted by `stop` and `status`
alone. -/

structure ServeState where
  pidFile : Option (Option Nat)
  probeOk : Nat → Bool
  portPid : Option Nat

structure StartResult where
  state : ServeState
  launched : Bool
  alreadyRunning : Bool

/-- `_read_pid` (cli.py): parse the PID file and probe the process; on a
parse failure or a failed probe the stale file is removed and `None` is
returned. -/
def readPid (s : ServeState) : Option Nat × ServeState :=
  match s.pidFile with
  | none => (none, s)
  | some none => (none, ⟨none, s.probeOk, s.portPid⟩)
  | some (some pid) =>
    if s.probeOk pid then (some pid, s)
    else (none, ⟨none, s.probeOk, s.portPid⟩)

/-- `_pid_from_port` (cli.py): whatever process the OS reports bound to
the configured port. -/
def pidFromPort (s : ServeState) : Option Nat := s.portPid

/-- The `status` action's check (cli.py line 188):
`_read_pid() or _pid_from_port(args.port)`. -/
def statusCheck (s : ServeState) : Option Nat × ServeState :=
  match readPid s with
  | (some pid, s1) => (some pid, s1)
  | (none, s1) => (pidFromPort s, s1)

/-- The `start` action (cli.py lines 165-177): guarded by `_read_pid()`
ONLY; when it returns a pid, print "already running" and do nothing else;
otherwise write our own pid to the PID file and run the server
in-process. -/
def startAction (s : ServeState) (selfPid : Nat) : StartResult :=
  match readPid s with
  | (some _, s1) => ⟨s1, false, true⟩
  | (none, s1) => ⟨⟨some (some selfPid), s1.probeOk, s1.portPid⟩, true, false⟩

/-- A server started outside the manager's tracking: no PID file, but a
live process (pid 42) bound to the configured port. -/
def c9State : ServeState := ⟨none, fun _ => true, some 42⟩

/-- C9 counterexample: the status check would find the port-bound server
(pid 42), yet `start` launches a second server anyway and does not report
"already running" — the port-lookup fallback is never consulted by
`start`. -/
theorem C9_start_counterexample :
    (statusCheck c9State).1 = some 42
    ∧ (startAction c9State 7).launched = true
    ∧ (startAction c9State 7).alreadyRunning = false :=
  ⟨rfl, rfl, rfl⟩

/-- C9 (amended): `start` refuses exactly when the PID file names a live
process: it reports "already running", launches nothing, and leaves the
PID file and process state unchanged.  When no PID file exists the port
lookup is NOT consulted (see the counterexample). -/
theorem C9_start_guard (s : ServeState) (selfPid pid : Nat)
    (hfile : s.pidFile = some (some pid)) (halive : s.probeOk pid = true) :
    startAction s selfPid = ⟨s, false, true⟩ := by
  rw [startAction, readPid, hfile]
  simp [halive]

theorem C9_start_guard_witness :
    startAction ⟨some (some 42), fun _ => true, none⟩ 7
      = ⟨⟨some (some 42), fun _ => true, none⟩, false, true⟩ :=
  C9_start_guard ⟨some (some 42), fun _ => true, none⟩ 7 42 rfl rfl

/-!  ## Settings loader (`load_settings`, settings.py lines 7-29)

`load_settings` deep-copies the module-level `DEFAULTS` dict and merges the
parsed settings file over the copy.  Mutability and aliasing are modelled
with an explicit heap: dict objects live at numeric addresses, values are
scalars, (inert) arrays, references to dict objects, or a parsed JSON
object stored wholesale by `base[k] = v` (this module never mutates such a
stored override object afterwards, because dict keys are processed once
per merge and every fresh copy contains only references and scalars).
Recursion over the (acyclic) heap carries fuel so the functions stay
structurally recursive; fuel 4 is enough for the two-level `DEFAULTS`. -/

/-- JSON leaves (arrays are never recursed into by settings.py, so their
elements are kept opaque). -/
inductive JScalar where
  | str (s : Str)
  | num (n : Int)
  | boolv (b : Bool)
  | null
  | arr (elems : List JScalar)

/-- A parsed JSON value as `json.load` hands it to `_deep_merge`. -/
inductive JTree where
  | atom (v : JScalar)
  | obj (fields : List (Str × JTree))

/-- A value slot inside a heap dict. -/
inductive HVal where
  | scalar (v : JScalar)
  | dictRef (a : Nat)
  | treeObj (fields : List (Str × JTree))

/-- The mutable heap: a dict object per address, plus the next fresh
address. -/
structure Store where
  mem : Nat → List (Str × HVal)
  next : Nat

/-- Python dict assignment `d[k] = v`: replace in place, else append. -/
def dictSet : List (Str × HVal) → Str → HVal → List (Str × HVal)
  | [], k, v => [(k, v)]
  | (k', v') :: rest, k, v =>
    if k' = k then (k', v) :: rest else (k', v') :: dictSet rest k v

/-- Python `k in d` / `d[k]`. -/
def dictFind (d : List (Str × HVal)) (k : Str) : Option HVal :=
  (d.find? (fun e => e.1 == k)).map (·.2)

def storeSet (st : Store) (a : Nat) (k : Str) (v : HVal) : Store :=
  ⟨Function.update st.mem a (dictSet (st.mem a) k v), st.next⟩

/-- `_deep_copy_dict` (settings.py), working over a dict's entry list:
non-dict values are shared, nested dicts are copied recursively into fresh
addresses. -/
def deepCopyEntries : Nat → Store → List (Str × HVal) →
    Option (List (Str × HVal) × Store)
  | 0, _, _ => none
  | _ + 1, st, [] => some ([], st)
  | fuel + 1, st, (k, HVal.dictRef b) :: rest =>
    match deepCopyEntries fuel st (st.mem b) with
    | none => none
    | some (es, st1) =>
      match deepCopyEntries fuel
          ⟨Function.update st1.mem st1.next es, st1.next + 1⟩ rest with
      | none => none
      | some (es2, st2) => some ((k, HVal.dictRef st1.next) :: es2, st2)
  | fuel + 1, st, (k, v) :: rest =>
    match deepCopyEntries fuel st rest with
    | none => none
    | some (es, st1) => some ((k, v) :: es, st1)

/-- `_deep_merge` (settings.py): if both `base[k]` and `v` are dicts,
recurse (mutating the dict `base[k]` refers to), else `base[k] = v`.  A
tree-valued object can never be `base[k]` in a store this module built
(fresh copies hold only references and scalars, and each key is merged at
most once per call), so that case is mapped to failure. -/
def deepMerge : Nat → Store → Nat → List (Str × JTree) → Option Store
  | 0, _, _, _ => none
  | _ + 1, st, _, [] => some st
  | fuel + 1, st, base, (k, JTree.obj sub) :: rest =>
    match dictFind (st.mem base) k with
    | some (HVal.dictRef b) =>
      match deepMerge fuel st b sub with
      | none => none
      | some st1 => deepMerge fuel st1 base rest
    | some (HVal.treeObj _) => none
    | _ => deepMerge fuel (storeSet st base k (HVal.treeObj sub)) base rest
  | fuel + 1, st, base, (k, JTree.atom a) :: rest =>
    deepMerge fuel (storeSet st base k (HVal.scalar a)) base rest

/-- `load_settings` (settings.py): deep-copy the dict at address 0 (the
module-level `DEFAULTS`), then, when the settings file exists and parses
to an object, merge it over the copy; the copy's address is returned. -/
def load_settings (fuel : Nat) (st : Store)
    (file : Option (List (Str × JTree))) : Option (Nat × Store) :=
  match deepCopyEntries fuel st (st.mem 0) with
  | none => none
  | some (es, st1) =>
    match file with
    | none => some (st1.next, ⟨Function.update st1.mem st1.next es, st1.next + 1⟩)
    | some override =>
      match deepMerge fuel
          ⟨Function.update st1.mem st1.next es, st1.next + 1⟩
          st1.next override with
      | none => none
      | some st2 => some (st1.next, st2)

/-- Read a dict structure back out of the heap as a JSON tree. -/
def readEntries : Nat → Store → List (Str × HVal) →
    Option (List (Str × JTree))
  | 0, _, _ => none
  | _ + 1, _, [] => some []
  | fuel + 1, st, (k, HVal.dictRef a) :: rest =>
    match readEntries fuel st (st.mem a), readEntries fuel st rest with
    | some sub, some es => some ((k, JTree.obj sub) :: es)
    | _, _ => none
  | fuel + 1, st, (k, HVal.scalar v) :: rest =>
    (readEntries fuel st rest).map (fun es => (k, JTree.atom v) :: es)
  | fuel + 1, st, (k, HVal.treeObj f) :: rest =>
    (readEntries fuel st rest).map (fun es => (k, JTree.obj f) :: es)

def readDict (fuel : Nat) (st : Store) (a : Nat) :
    Option (List (Str × JTree)) :=
  readEntries fuel st (st.mem a)

/-- The entries of `DEFAULTS` (address 0) and of its nested `server` dict
(address 1). -/
def defaultsRootEntries : List (Str × HVal) :=
  [(("server").toList, HVal.dictRef 1)]

def defaultsServerEntries : List (Str × HVal) :=
  [(("host").toList, HVal.scalar (.str ("0.0.0.0").toList)),
   (("port").toList, HVal.scalar (.num 8001))]

/-- The initial heap: `DEFAULTS` at address 0, its `server` dict at 1. -/
def defaultsStore : Store :=
  ⟨fun a => if a = 0 then defaultsRootEntries
            else if a = 1 then defaultsServerEntries
            else [],
   2⟩

/-- `DEFAULTS` as a value: `{"server": {"host": "0.0.0.0", "port": 8001}}`. -/
def defaultsTree : List (Str × JTree) :=
  [(("server").toList,
    JTree.obj [(("host").toList, .atom (.str ("0.0.0.0").toList)),
               (("port").toList, .atom (.num 8001))])]

/-- Dicts in the freshly-allocated region (addresses ≥ 2) only reference
addresses ≥ 2, so no merge ever writes into the `DEFAULTS` region. -/
def RefsGood (st : Store) : Prop :=
  ∀ a, 2 ≤ a → ∀ k b, (k, HVal.dictRef b) ∈ st.mem a → 2 ≤ b

def GoodStore (st : Store) : Prop :=
  st.mem 0 = defaultsRootEntries ∧ st.mem 1 = defaultsServerEntries ∧
  2 ≤ st.next ∧ RefsGood st

theorem dictSet_mem : ∀ (d : List (Str × HVal)) (k : Str) (v : HVal)
    (x : Str × HVal), x ∈ dictSet d k v → x ∈ d ∨ x = (k, v) := by
  intro d
  induction d with
  | nil =>
    intro k v x hx
    simp [dictSet] at hx
    exact Or.inr hx
  | cons e rest ih =>
    intro k v x hx
    rcases e with ⟨k', v'⟩
    rw [dictSet] at hx
    by_cases hk : k' = k
    · rw [if_pos hk] at hx
      rcases List.mem_cons.mp hx with rfl | hx2
      · exact Or.inr (by rw [hk])
      · exact Or.inl (List.mem_cons_of_mem _ hx2)
    · rw [if_neg hk] at hx
      rcases List.mem_cons.mp hx with rfl | hx2
      · exact Or.inl (List.mem_cons_self _ _)
      · rcases ih k v x hx2 with h | h
        · exact Or.inl (List.mem_cons_of_mem _ h)
        · exact Or.inr h

theorem storeSet_refsGood {st : Store} {a : Nat} {k : Str} {v : HVal}
    (hv : ∀ b, v ≠ HVal.dictRef b) (h : RefsGood st) :
    RefsGood (storeSet st a k v) := by
  intro a' ha' k' b hmem
  rw [storeSet] at hmem
  simp only [] at hmem
  by_cases heq : a' = a
  · rw [heq, Function.update_same] at hmem
    rcases dictSet_mem _ _ _ _ hmem with hold | hnew
    · exact h a' ha' k' b (heq ▸ hold)
    · exact absurd (congrArg Prod.snd hnew) (by simpa using (hv b).symm)
  · rw [Function.update_noteq heq] at hmem
    exact h a' ha' k' b hmem

theorem deepCopyEntries_nil (fuel : Nat) (st : Store) :
    deepCopyEntries (fuel + 1) st [] = some ([], st) := rfl

theorem deepCopyEntries_cons_scalar (fuel : Nat) (st : Store) (k : Str)
    (v : JScalar) (rest : List (Str × HVal)) :
    deepCopyEntries (fuel + 1) st ((k, HVal.scalar v) :: rest)
      = match deepCopyEntries fuel st rest with
        | none => none
        | some (es, st1) => some ((k, HVal.scalar v) :: es, st1) := rfl

theorem deepCopyEntries_cons_tree (fuel : Nat) (st : Store) (k : Str)
    (f : List (Str × JTree)) (rest : List (Str × HVal)) :
    deepCopyEntries (fuel + 1) st ((k, HVal.treeObj f) :: rest)
      = match deepCopyEntries fuel st rest with
        | none => none
        | some (es, st1) => some ((k, HVal.treeObj f) :: es, st1) := rfl

theorem deepCopyEntries_cons_ref (fuel : Nat) (st : Store) (k : Str)
    (b : Nat) (rest : List (Str × HVal)) :
    deepCopyEntries (fuel + 1) st ((k, HVal.dictRef b) :: rest)
      = match deepCopyEntries fuel st (st.mem b) with
        | none => none
        | some (es, st1) =>
          match deepCopyEntries fuel
              ⟨Function.update st1.mem st1.next es, st1.next + 1⟩ rest with
          | none => none
          | some (es2, st2) => some ((k, HVal.dictRef st1.next) :: es2, st2) :=
  rfl

theorem deepCopyEntries_spec : ∀ (fuel : Nat) (st : Store)
    (entries es : List (Str × HVal)) (st' : Store),
    deepCopyEntries fuel st entries = some (es, st') →
    st.next ≤ st'.next ∧
    (∀ x, x < st.next → st'.mem x = st.mem x) ∧
    (2 ≤ st.next → RefsGood st →
      RefsGood st' ∧ 2 ≤ st'.next ∧
      ∀ k b, (k, HVal.dictRef b) ∈ es → 2 ≤ b) := by
  intro fuel
  induction fuel with
  | zero =>
    intro st entries es st' h
    simp [deepCopyEntries] at h
  | succ fuel ih =>
    intro st entries es st' h
    rcases entries with _ | ⟨⟨k, v⟩, rest⟩
    · rw [deepCopyEntries_nil] at h
      simp only [Option.some.injEq, Prod.mk.injEq] at h
      obtain ⟨rfl, rfl⟩ := h
      exact ⟨Nat.le_refl _, fun x _ => rfl,
             fun h2 hr => ⟨hr, h2, by simp⟩⟩
    · rcases v with v | b | f
      · -- scalar
        rw [deepCopyEntries_cons_scalar] at h
        rcases hrec : deepCopyEntries fuel st rest with _ | ⟨es1, st1⟩
        · simp only [hrec] at h
          simp at h
        · simp only [hrec, Option.some.injEq, Prod.mk.injEq] at h
          obtain ⟨hes, hst⟩ := h
          obtain ⟨h1, h2, h3⟩ := ih st rest es1 st1 hrec
          rw [← hes, ← hst]
          refine ⟨h1, h2, fun hn hr => ?_⟩
          obtain ⟨hr', hn', hes3⟩ := h3 hn hr
          refine ⟨hr', hn', fun k' b' hmem => ?_⟩
          rcases List.mem_cons.mp hmem with heq | hmem2
          · simp at heq
          · exact hes3 k' b' hmem2
      · -- nested dict
        rw [deepCopyEntries_cons_ref] at h
        rcases hrec1 : deepCopyEntries fuel st (st.mem b)
          with _ | ⟨es1, st1⟩
        · simp only [hrec1] at h
          simp at h
        · simp only [hrec1] at h
          rcases hrec2 : deepCopyEntries fuel
              ⟨Function.update st1.mem st1.next es1, st1.next + 1⟩ rest
            with _ | ⟨es2, st2⟩
          · simp only [hrec2] at h
            simp at h
          · simp only [hrec2, Option.some.injEq, Prod.mk.injEq] at h
            obtain ⟨hes, hst⟩ := h
            obtain ⟨ha1, ha2, ha3⟩ := ih st (st.mem b) es1 st1 hrec1
            obtain ⟨hb1, hb2, hb3⟩ := ih _ rest es2 st2 hrec2
            have hb1' : st1.next + 1 ≤ st2.next := hb1
            have hb2' : ∀ x, x < st1.next + 1 →
                st2.mem x = Function.update st1.mem st1.next es1 x := hb2
            rw [← hes, ← hst]
            refine ⟨by omega, ?_, ?_⟩
            · intro x hx
              have hx1 : x < st1.next := by
                have := ha1
                omega
              rw [hb2' x (by omega), Function.update_noteq (by omega),
                  ha2 x hx]
            · intro hn hr
              obtain ⟨hr1, hn1, hes1⟩ := ha3 hn hr
              have hrmid : RefsGood
                  ⟨Function.update st1.mem st1.next es1, st1.next + 1⟩ := by
                intro a' ha' k' b' hmem
                simp only [] at hmem
                by_cases heq : a' = st1.next
                · rw [heq, Function.update_same] at hmem
                  exact hes1 k' b' hmem
                · rw [Function.update_noteq heq] at hmem
                  exact hr1 a' ha' k' b' hmem
              obtain ⟨hr2, hn2, hes2⟩ := hb3 (by
                show 2 ≤ st1.next + 1
                omega) hrmid
              refine ⟨hr2, hn2, fun k' b' hmem => ?_⟩
              rcases List.mem_cons.mp hmem with heq | hmem2
              · have hb' : b' = st1.next := by
                  simpa using congrArg (fun p => p.2) heq
                omega
              · exact hes2 k' b' hmem2
      · -- tree-valued object
        rw [deepCopyEntries_cons_tree] at h
        rcases hrec : deepCopyEntries fuel st rest with _ | ⟨es1, st1⟩
        · simp only [hrec] at h
          simp at h
        · simp only [hrec, Option.some.injEq, Prod.mk.injEq] at h
          obtain ⟨hes, hst⟩ := h
          obtain ⟨h1, h2, h3⟩ := ih st rest es1 st1 hrec
          rw [← hes, ← hst]
          refine ⟨h1, h2, fun hn hr => ?_⟩
          obtain ⟨hr', hn', hes3⟩ := h3 hn hr
          refine ⟨hr', hn', fun k' b' hmem => ?_⟩
          rcases List.mem_cons.mp hmem with heq | hmem2
          · simp at heq
          · exact hes3 k' b' hmem2

theorem deepMerge_nil (fuel : Nat) (st : Store) (base : Nat) :
    deepMerge (fuel + 1) st base [] = some st := rfl

theorem deepMerge_atom (fuel : Nat) (st : Store) (base : Nat) (k : Str)
    (a : JScalar) (rest : List (Str × JTree)) :
    deepMerge (fuel + 1) st base ((k, JTree.atom a) :: rest)
      = deepMerge fuel (storeSet st base k (HVal.scalar a)) base rest := rfl

theorem deepMerge_obj_ref {st : Store} {base : Nat} {k : Str} {b : Nat}
    (fuel : Nat) (sub rest : List (Str × JTree))
    (h : dictFind (st.mem base) k = some (HVal.dictRef b)) :
    deepMerge (fuel + 1) st base ((k, JTree.obj sub) :: rest)
      = match deepMerge fuel st b sub with
        | none => none
        | some st1 => deepMerge fuel st1 base rest := by
  rw [deepMerge, h]

theorem deepMerge_obj_tree {st : Store} {base : Nat} {k : Str}
    {f : List (Str × JTree)} (fuel : Nat) (sub rest : List (Str × JTree))
    (h : dictFind (st.mem base) k = some (HVal.treeObj f)) :
    deepMerge (fuel + 1) st base ((k, JTree.obj sub) :: rest) = none := by
  rw [deepMerge, h]

theorem deepMerge_obj_none {st : Store} {base : Nat} {k : Str}
    (fuel : Nat) (sub rest : List (Str × JTree))
    (h : dictFind (st.mem base) k = none) :
    deepMerge (fuel + 1) st base ((k, JTree.obj sub) :: rest)
      = deepMerge fuel (storeSet st base k (HVal.treeObj sub)) base rest := by
  rw [deepMerge, h]

theorem deepMerge_obj_scalar {st : Store} {base : Nat} {k : Str}
    {v : JScalar} (fuel : Nat) (sub rest : List (Str × JTree))
    (h : dictFind (st.mem base) k = some (HVal.scalar v)) :
    deepMerge (fuel + 1) st base ((k, JTree.obj sub) :: rest)
      = deepMerge fuel (storeSet st base k (HVal.treeObj sub)) base rest := by
  rw [deepMerge, h]

theorem storeSet_frame (st : Store) (a : Nat) (k : Str) (v : HVal)
    (x : Nat) (hx : x ≠ a) : (storeSet st a k v).mem x = st.mem x := by
  rw [storeSet]
  exact Function.update_noteq hx _ _

theorem deepMerge_spec : ∀ (fuel : Nat) (st : Store) (base : Nat)
    (override : List (Str × JTree)) (st' : Store),
    deepMerge fuel st base override = some st' → 2 ≤ base → RefsGood st →
    (∀ x, x < 2 → st'.mem x = st.mem x) ∧ st'.next = st.next ∧
      RefsGood st' := by
  intro fuel
  induction fuel with
  | zero =>
    intro st base override st' h
    simp [deepMerge] at h
  | succ fuel ih =>
    intro st base override st' h hbase hr
    rcases override with _ | ⟨⟨k, t⟩, rest⟩
    · rw [deepMerge_nil] at h
      simp only [Option.some.injEq] at h
      rw [← h]
      exact ⟨fun x _ => rfl, rfl, hr⟩
    · rcases t with a | sub
      · rw [deepMerge_atom] at h
        obtain ⟨h1, h2, h3⟩ := ih _ base rest st' h hbase
          (storeSet_refsGood (fun b => by simp) hr)
        refine ⟨?_, ?_, h3⟩
        · intro x hx
          rw [h1 x hx, storeSet_frame _ _ _ _ _ (by omega)]
        · rw [h2]
          rfl
      · rcases hf : dictFind (st.mem base) k with _ | ⟨v | b | f⟩
        · rw [deepMerge_obj_none fuel sub rest hf] at h
          obtain ⟨h1, h2, h3⟩ := ih _ base rest st' h hbase
            (storeSet_refsGood (fun b => by simp) hr)
          refine ⟨?_, ?_, h3⟩
          · intro x hx
            rw [h1 x hx, storeSet_frame _ _ _ _ _ (by omega)]
          · rw [h2]
            rfl
        · rw [deepMerge_obj_scalar fuel sub rest hf] at h
          obtain ⟨h1, h2, h3⟩ := ih _ base rest st' h hbase
            (storeSet_refsGood (fun b => by simp) hr)
          refine ⟨?_, ?_, h3⟩
          · intro x hx
            rw [h1 x hx, storeSet_frame _ _ _ _ _ (by omega)]
          · rw [h2]
            rfl
        · rw [deepMerge_obj_ref fuel sub rest hf] at h
          rcases hm : deepMerge fuel st b sub with _ | st1
          · simp only [hm] at h
            simp at h
          · simp only [hm] at h
            have hb2 : 2 ≤ b := by
              obtain ⟨e, hfind, he⟩ := Option.map_eq_some'.mp hf
              have hmem : (e.1, HVal.dictRef b) ∈ st.mem base := by
                have hm2 := List.mem_of_find?_eq_some hfind
                have he2 : (e.1, HVal.dictRef b) = e := by
                  rw [← he]
                rwa [he2]
              exact hr base hbase e.1 b hmem
            obtain ⟨ha1, ha2, ha3⟩ := ih st b sub st1 hm hb2 hr
            obtain ⟨hc1, hc2, hc3⟩ := ih st1 base rest st' h hbase ha3
            exact ⟨fun x hx => by rw [hc1 x hx, ha1 x hx],
                   by rw [hc2, ha2], hc3⟩
        · rw [deepMerge_obj_tree fuel sub rest hf] at h
          simp at h

theorem load_settings_spec (fuel : Nat) (st : Store)
    (file : Option (List (Str × JTree))) (a : Nat) (st' : Store)
    (h : load_settings fuel st file = some (a, st')) (hg : GoodStore st) :
    GoodStore st' := by
  obtain ⟨hm0, hm1, hn, hr⟩ := hg
  rw [load_settings] at h
  rcases hc : deepCopyEntries fuel st (st.mem 0) with _ | ⟨es, st1⟩
  · rw [hc] at h
    simp at h
  · rw [hc] at h
    obtain ⟨h1, h2, h3⟩ := deepCopyEntries_spec fuel st _ es st1 hc
    obtain ⟨hr1, hn1, hes⟩ := h3 hn hr
    have hmidgood : GoodStore
        ⟨Function.update st1.mem st1.next es, st1.next + 1⟩ := by
      refine ⟨?_, ?_, ?_, ?_⟩
      case refine_3 =>
        show 2 ≤ st1.next + 1
        omega
      · show Function.update st1.mem st1.next es 0 = defaultsRootEntries
        rw [Function.update_noteq (by omega), h2 0 (by omega), hm0]
      · show Function.update st1.mem st1.next es 1 = defaultsServerEntries
        rw [Function.update_noteq (by omega), h2 1 (by omega), hm1]
      · intro a' ha' k' b' hmem
        simp only [] at hmem
        by_cases heq : a' = st1.next
        · rw [heq, Function.update_same] at hmem
          exact hes k' b' hmem
        · rw [Function.update_noteq heq] at hmem
          exact hr1 a' ha' k' b' hmem
    rcases file with _ | ov
    · simp only [hc, Option.some.injEq, Prod.mk.injEq] at h
      obtain ⟨_, hst⟩ := h
      rw [← hst]
      exact hmidgood
    · simp only [hc] at h
      rcases hmg : deepMerge fuel
          ⟨Function.update st1.mem st1.next es, st1.next + 1⟩ st1.next ov
        with _ | st2
      · simp only [hmg] at h
        simp at h
      · simp only [hmg, Option.some.injEq, Prod.mk.injEq] at h
        obtain ⟨_, hst⟩ := h
        rw [← hst]
        obtain ⟨hf1, hf2, hf3⟩ := deepMerge_spec fuel _ st1.next ov st2 hmg
          (by omega) hmidgood.2.2.2
        refine ⟨?_, ?_, ?_, hf3⟩
        · rw [hf1 0 (by omega)]
          exact hmidgood.1
        · rw [hf1 1 (by omega)]
          exact hmidgood.2.1
        · rw [hf2]
          exact hmidgood.2.2.1

/-- Repeated calls to `load_settings`, threading the heap through (a call
that fails — in the model, runs out of fuel — leaves the heap alone). -/
def runCalls (st : Store) : List (Nat × Option (List (Str × JTree))) → Store
  | [] => st
  | (fuel, file) :: rest =>
    match load_settings fuel st file with
    | some (_, st') => runCalls st' rest
    | none => runCalls st rest

theorem runCalls_good : ∀ (calls : List (Nat × Option (List (Str × JTree))))
    (st : Store), GoodStore st → GoodStore (runCalls st calls) := by
  intro calls
  induction calls with
  | nil => exact fun st hg => hg
  | cons c rest ih =>
    intro st hg
    rcases c with ⟨fuel, file⟩
    rw [runCalls]
    rcases hl : load_settings fuel st file with _ | ⟨a, st'⟩
    · exact ih st hg
    · exact ih st' (load_settings_spec fuel st file a st' hl hg)

theorem defaultsStore_good : GoodStore defaultsStore := by
  refine ⟨rfl, rfl, Nat.le_refl _, ?_⟩
  intro a ha k b hmem
  simp only [defaultsStore] at hmem
  rw [if_neg (by omega), if_neg (by omega)] at hmem
  simp at hmem

theorem readEntries_cons_ref (fuel : Nat) (st : Store) (k : Str) (a : Nat)
    (rest : List (Str × HVal)) :
    readEntries (fuel + 1) st ((k, HVal.dictRef a) :: rest)
      = match readEntries fuel st (st.mem a), readEntries fuel st rest with
        | some sub, some es => some ((k, JTree.obj sub) :: es)
        | _, _ => none := rfl

theorem readEntries_server (st : Store) :
    readEntries 3 st defaultsServerEntries
      = some [(("host").toList, JTree.atom (.str ("0.0.0.0").toList)),
              (("port").toList, JTree.atom (.num 8001))] := rfl

theorem readEntries_nil3 (st : Store) :
    readEntries 3 st ([] : List (Str × HVal)) = some [] := rfl

/-- Reading a two-level dict of the `DEFAULTS` shape out of any heap. -/
theorem readDict_shape (st : Store) (a r : Nat)
    (hma : st.mem a = [(("server").toList, HVal.dictRef r)])
    (hmr : st.mem r = defaultsServerEntries) :
    readDict 4 st a = some defaultsTree := by
  rw [readDict, hma, readEntries_cons_ref, hmr]
  simp only [readEntries_server, readEntries_nil3]
  rfl

/-- Reading back the `DEFAULTS` region of any heap that still holds the
default entries gives the `DEFAULTS` value. -/
theorem readDict_defaults (st : Store)
    (hm0 : st.mem 0 = defaultsRootEntries)
    (hm1 : st.mem 1 = defaultsServerEntries) :
    readDict 4 st 0 = some defaultsTree :=
  readDict_shape st 0 1 (by rw [hm0]; rfl) hm1

/-- The copy `load_settings` makes of the two-level `DEFAULTS` dict:
the `server` dict is duplicated at the next fresh address. -/
theorem copy_defaults (st : Store)
    (hm0 : st.mem 0 = defaultsRootEntries)
    (hm1 : st.mem 1 = defaultsServerEntries) :
    deepCopyEntries 4 st (st.mem 0)
      = some ([(("server").toList, HVal.dictRef st.next)],
              ⟨Function.update st.mem st.next defaultsServerEntries,
               st.next + 1⟩) := by
  rw [hm0, defaultsRootEntries, deepCopyEntries_cons_ref, hm1]
  have h1 : deepCopyEntries 3 st defaultsServerEntries
      = some (defaultsServerEntries, st) := rfl
  have h2 : deepCopyEntries 3
      ⟨Function.update st.mem st.next defaultsServerEntries, st.next + 1⟩
      ([] : List (Str × HVal))
      = some ([], ⟨Function.update st.mem st.next defaultsServerEntries,
                   st.next + 1⟩) := rfl
  simp only [h1, h2]

theorem load_settings_none_eq (st : Store)
    (hm0 : st.mem 0 = defaultsRootEntries)
    (hm1 : st.mem 1 = defaultsServerEntries) :
    load_settings 4 st none
      = some (st.next + 1,
          ⟨Function.update
             (Function.update st.mem st.next defaultsServerEntries)
             (st.next + 1) [(("server").toList, HVal.dictRef st.next)],
           st.next + 2⟩) := by
  rw [load_settings]
  simp only [copy_defaults st hm0 hm1]

theorem readDict_copy (st : Store) :
    readDict 4
      ⟨Function.update
         (Function.update st.mem st.next defaultsServerEntries)
         (st.next + 1) [(("server").toList, HVal.dictRef st.next)],
       st.next + 2⟩ (st.next + 1)
      = some defaultsTree := by
  apply readDict_shape _ _ st.next
  · exact Function.update_same _ _ _
  · show Function.update
        (Function.update st.mem st.next defaultsServerEntries)
        (st.next + 1) [(("server").toList, HVal.dictRef st.next)]
        st.next = defaultsServerEntries
    rw [Function.update_noteq (by omega), Function.update_same]

/-- C10: `load_settings` never mutates the module-level `DEFAULTS`: after
any sequence of calls with any settings-file contents, reading the heap at
`DEFAULTS`'s address still gives
`{"server": {"host": "0.0.0.0", "port": 8001}}`; and a call whose path
does not exist returns (a fresh copy) structurally equal to `DEFAULTS`. -/
theorem C10_load_settings :
    (∀ calls : List (Nat × Option (List (Str × JTree))),
      readDict 4 (runCalls defaultsStore calls) 0 = some defaultsTree)
    ∧ (∀ calls : List (Nat × Option (List (Str × JTree))),
      ∃ a st',
        load_settings 4 (runCalls defaultsStore calls) none = some (a, st')
        ∧ readDict 4 st' a = some defaultsTree) := by
  constructor
  · intro calls
    obtain ⟨hm0, hm1, _, _⟩ := runCalls_good calls defaultsStore
      defaultsStore_good
    exact readDict_defaults _ hm0 hm1
  · intro calls
    obtain ⟨hm0, hm1, _, _⟩ := runCalls_good calls defaultsStore
      defaultsStore_good
    exact ⟨(runCalls defaultsStore calls).next + 1, _,
           load_settings_none_eq _ hm0 hm1, readDict_copy _⟩

/-!  ## Window endpoint (`get_tasks_window`, api.py lines 45-58)

`date.today() ± timedelta(days=N)` is proleptic-Gregorian day arithmetic;
`isoformat()` prints `YYYY-MM-DD` zero-padded; the SQL
`WHERE date >= ? AND date <= ? ORDER BY date` compares TEXT byte-wise,
which for these ASCII strings is the code-point order `strLt`. -/

/-- `n` printed in decimal, zero-padded to `w` digits (the behaviour of
`%0wd` for `n < 10^w`). -/
def digitChar (d : Nat) : Char := Char.ofNat (48 + d)

def padNat : Nat → Nat → Str
  | 0, _ => []
  | w + 1, n => padNat w (n / 10) ++ [digitChar (n % 10)]

theorem padNat_length : ∀ (w n : Nat), (padNat w n).length = w := by
  intro w
  induction w with
  | zero => intro n; rfl
  | succ w ih =>
    intro n
    rw [padNat]
    simp [ih]

theorem strLt_append_left : ∀ (p a b : Str),
    strLt (p ++ a) (p ++ b) = strLt a b := by
  intro p
  induction p with
  | nil => intro a b; rfl
  | cons c rest ih =>
    intro a b
    simp only [List.cons_append, strLt, lt_self_iff_false, decide_False,
      beq_self_eq_true, Bool.true_and, Bool.false_or]
    exact ih a b

theorem strLt_append_of_lt : ∀ (a b x y : Str),
    a.length = b.length → strLt a b = true → strLt (a ++ x) (b ++ y) = true := by
  intro a
  induction a with
  | nil =>
    intro b x y hlen hab
    rcases b with _ | ⟨b1, bs⟩
    · simp [strLt] at hab
    · simp at hlen
  | cons a1 as ih =>
    intro b x y hlen hab
    rcases b with _ | ⟨b1, bs⟩
    · simp [strLt] at hab
    · simp only [List.length_cons, Nat.succ.injEq] at hlen
      simp only [strLt, Bool.or_eq_true, Bool.and_eq_true, beq_iff_eq,
        decide_eq_true_eq] at hab ⊢
      rcases hab with h | ⟨rfl, h⟩
      · exact Or.inl h
      · exact Or.inr ⟨rfl, ih bs x y hlen h⟩

theorem strLt_asymm {a b : Str} (h : strLt a b = true) : strLt b a = false := by
  by_contra hc
  simp only [Bool.not_eq_false] at hc
  have := strLt_trans a b a h hc
  rw [strLt_irrefl] at this
  exact Bool.false_ne_true this

theorem strLt_ne {a b : Str} (h : strLt a b = true) : a ≠ b := by
  intro heq
  rw [heq, strLt_irrefl] at h
  exact Bool.false_ne_true h

theorem digitChar_lt : ∀ x < 10, ∀ y < 10, x < y →
    (decide (digitChar x < digitChar y)) = true := by decide

theorem padNat_lt : ∀ (w a b : Nat), a < b → b < 10 ^ w →
    strLt (padNat w a) (padNat w b) = true := by
  intro w
  induction w with
  | zero =>
    intro a b hab hb
    simp at hb
    omega
  | succ w ih =>
    intro a b hab hb
    rw [padNat, padNat]
    have hb10 : b / 10 < 10 ^ w := by
      rw [pow_succ] at hb
      omega
    rcases Nat.lt_trichotomy (a / 10) (b / 10) with h | h | h
    · exact strLt_append_of_lt _ _ _ _
        (by rw [padNat_length, padNat_length]) (ih _ _ h hb10)
    · rw [h, strLt_append_left]
      have hmod : a % 10 < b % 10 := by omega
      simp only [strLt, Bool.or_eq_true, decide_eq_true_eq]
      exact Or.inl (by
        have := digitChar_lt (a % 10) (by omega) (b % 10) (by omega) hmod
        simpa using this)
    · have : b / 10 ≤ a / 10 := by omega
      omega

/-- `a <= b` in Python-string / SQLite-TEXT order. -/
def strLe (a b : Str) : Bool := strLt a b || a == b

theorem strLe_refl (a : Str) : strLe a a = true := by
  simp [strLe]

theorem strLe_bool_trans {a b c : Str} (h1 : strLe a b = true)
    (h2 : strLe b c = true) : strLe a c = true := by
  simp only [strLe, Bool.or_eq_true, beq_iff_eq] at h1 h2 ⊢
  rcases strLePropTrans h1 h2 with h | h
  · exact Or.inl h
  · exact Or.inr h

theorem strLe_total (a b : Str) : (strLe a b || strLe b a) = true := by
  have h := strLt_connex a b
  simp only [Bool.or_eq_true, beq_iff_eq] at h
  simp only [strLe, Bool.or_eq_true, beq_iff_eq]
  rcases h with (h | h) | h
  · exact Or.inl (Or.inl h)
  · exact Or.inl (Or.inr h)
  · exact Or.inr (Or.inl h)

/-- Proleptic Gregorian calendar date, as in Python's `datetime.date`
(year there is constrained to 1..9999). -/
structure Date where
  year : Int
  month : Nat
  day : Nat
deriving DecidableEq, Repr

def isLeap (y : Int) : Bool :=
  y % 4 == 0 && (y % 100 != 0 || y % 400 == 0)

def daysInMonth (y : Int) (m : Nat) : Nat :=
  if m = 2 then (if isLeap y then 29 else 28)
  else if m = 4 ∨ m = 6 ∨ m = 9 ∨ m = 11 then 30
  else 31

def DateValid (d : Date) : Prop :=
  1 ≤ d.year ∧ d.year ≤ 9999 ∧ 1 ≤ d.month ∧ d.month ≤ 12 ∧
    1 ≤ d.day ∧ d.day ≤ daysInMonth d.year d.month

instance (d : Date) : Decidable (DateValid d) := by
  unfold DateValid; infer_instance

def nextDay (d : Date) : Date :=
  if d.day < daysInMonth d.year d.month then ⟨d.year, d.month, d.day + 1⟩
  else if d.month < 12 then ⟨d.year, d.month + 1, 1⟩
  else ⟨d.year + 1, 1, 1⟩

def prevDay (d : Date) : Date :=
  if 1 < d.day then ⟨d.year, d.month, d.day - 1⟩
  else if 1 < d.month then ⟨d.year, d.month - 1, daysInMonth d.year (d.month - 1)⟩
  else ⟨d.year - 1, 12, 31⟩

/-- `date.isoformat()`: zero-padded `YYYY-MM-DD`. -/
def isoformat (d : Date) : Str :=
  padNat 4 d.year.toNat ++ ('-' :: (padNat 2 d.month ++ ('-' :: padNat 2 d.day)))

/-- `d + timedelta(days=n)` (exact on the valid range; Python raises
`OverflowError` outside 1..9999, which we model only through the validity
hypotheses of the theorems). -/
def pyAddDays (d : Date) (n : Int) : Date :=
  if 0 ≤ n then nextDay^[n.toNat] d else prevDay^[(-n).toNat] d

/-- api.py lines 45-58: filter on the inclusive TEXT range
`[isoformat(today - days), isoformat(today + days)]`, ordered by date. -/
def get_tasks_window (today : Date) (days : Int) (db : List TaskRow) :
    List TaskRow :=
  let from_date := isoformat (pyAddDays today (-days))
  let to_date := isoformat (pyAddDays today days)
  (db.filter (fun t => strLe from_date t.date && strLe t.date to_date)).mergeSort
    (fun a b => strLe a.date b.date)

/-- Strict calendar order on (year, month, day). -/
def rankLt (d1 d2 : Date) : Prop :=
  d1.year < d2.year ∨
    (d1.year = d2.year ∧ (d1.month < d2.month ∨
      (d1.month = d2.month ∧ d1.day < d2.day)))

theorem daysInMonth_le (y : Int) (m : Nat) : daysInMonth y m ≤ 31 := by
  unfold daysInMonth
  split
  · split <;> omega
  · split <;> omega

theorem nextDay_rank (d : Date) : rankLt d (nextDay d) := by
  unfold nextDay rankLt
  split
  · right; refine ⟨rfl, Or.inr ⟨rfl, ?A⟩⟩; show d.day < d.day + 1; omega
  · split
    · right; refine ⟨rfl, Or.inl ?B⟩; show d.month < d.month + 1; omega
    · left; show d.year < d.year + 1; omega

theorem prevDay_rank (d : Date) : rankLt (prevDay d) d := by
  unfold prevDay rankLt
  split
  · rename_i h1
    right; refine ⟨rfl, Or.inr ⟨rfl, ?A⟩⟩; show d.day - 1 < d.day; omega
  · split
    · rename_i h1 h2
      right; refine ⟨rfl, Or.inl ?B⟩; show d.month - 1 < d.month; omega
    · left; show d.year - 1 < d.year; omega

theorem iso_lt_of_rankLt {d1 d2 : Date} (h1 : DateValid d1) (h2 : DateValid d2)
    (hr : rankLt d1 d2) : strLt (isoformat d1) (isoformat d2) = true := by
  obtain ⟨ha1, ha2, ha3, ha4, ha5, ha6⟩ := h1
  obtain ⟨hb1, hb2, hb3, hb4, hb5, hb6⟩ := h2
  rcases hr with hy | ⟨hy, hm | ⟨hm, hd⟩⟩
  · unfold isoformat
    refine strLt_append_of_lt _ _ _ _ (by rw [padNat_length, padNat_length]) ?A
    refine padNat_lt 4 _ _ ?B ?C
    · omega
    · omega
  · have hiso : ∀ d : Date, isoformat d =
        (padNat 4 d.year.toNat ++ ['-']) ++
          (padNat 2 d.month ++ ('-' :: padNat 2 d.day)) := by
      intro d; simp [isoformat]
    rw [hiso, hiso, hy, strLt_append_left]
    refine strLt_append_of_lt _ _ _ _ (by rw [padNat_length, padNat_length]) ?D
    exact padNat_lt 2 _ _ hm (by omega)
  · have hiso : ∀ d : Date, isoformat d =
        ((padNat 4 d.year.toNat ++ ['-']) ++ (padNat 2 d.month ++ ['-'])) ++
          padNat 2 d.day := by
      intro d; simp [isoformat]
    rw [hiso, hiso, hy, hm, strLt_append_left]
    have h31 := daysInMonth_le d2.year d2.month
    exact padNat_lt 2 _ _ hd (by omega)

theorem iso_prev_chain (today : Date) (M : Nat)
    (hv : ∀ k, k ≤ M → DateValid (prevDay^[k] today)) :
    ∀ j k, j < k → k ≤ M →
      strLt (isoformat (prevDay^[k] today)) (isoformat (prevDay^[j] today))
        = true := by
  intro j k
  induction k with
  | zero => intro h; omega
  | succ k ih =>
    intro hjk hkM
    have hstep : strLt (isoformat (prevDay^[k + 1] today))
        (isoformat (prevDay^[k] today)) = true := by
      rw [Function.iterate_succ_apply']
      refine iso_lt_of_rankLt ?A (hv _ (by omega)) (prevDay_rank _)
      rw [← Function.iterate_succ_apply' prevDay k today]
      exact hv _ hkM
    rcases Nat.lt_or_ge j k with h | h
    · exact strLt_trans _ _ _ hstep (ih h (by omega))
    · have hjke : j = k := by omega
      subst hjke
      exact hstep

theorem iso_next_chain (today : Date) (M : Nat)
    (hv : ∀ k, k ≤ M → DateValid (nextDay^[k] today)) :
    ∀ j k, j < k → k ≤ M →
      strLt (isoformat (nextDay^[j] today)) (isoformat (nextDay^[k] today))
        = true := by
  intro j k
  induction k with
  | zero => intro h; omega
  | succ k ih =>
    intro hjk hkM
    have hstep : strLt (isoformat (nextDay^[k] today))
        (isoformat (nextDay^[k + 1] today)) = true := by
      rw [Function.iterate_succ_apply' nextDay k today]
      refine iso_lt_of_rankLt (hv _ (by omega)) ?A (nextDay_rank _)
      rw [← Function.iterate_succ_apply' nextDay k today]
      exact hv _ hkM
    rcases Nat.lt_or_ge j k with h | h
    · exact strLt_trans _ _ _ (ih h (by omega)) hstep
    · have hjke : j = k := by omega
      subst hjke
      exact hstep

theorem strLe_false_of_lt {a b : Str} (h : strLt b a = true) :
    strLe a b = false := by
  have hne : a ≠ b := fun heq => strLt_ne h heq.symm
  simp only [strLe, strLt_asymm h, Bool.false_or, beq_eq_false_iff_ne, ne_eq]
  exact hne

/-- **C7.** `GET /tasks/window?days=N` returns exactly the stored tasks whose
date string lies, in lexicographic (SQLite TEXT) order, in the inclusive range
`[(today - N days).isoformat(), (today + N days).isoformat()]`, ordered by
date ascending; whenever the `2N + 2` surrounding calendar days are valid
Python dates, a task dated exactly `today - N` or `today + N` is in the
response and one dated `today - N - 1` or `today + N + 1` is not. -/
theorem C7_tasks_window (today : Date) (days : Int) (db : List TaskRow) :
    (∀ t, t ∈ get_tasks_window today days db ↔
        t ∈ db ∧
          strLe (isoformat (pyAddDays today (-days))) t.date = true ∧
          strLe t.date (isoformat (pyAddDays today days)) = true) ∧
    List.Pairwise (fun a b => strLe a.date b.date = true)
      (get_tasks_window today days db) ∧
    (∀ N : Nat, days = (N : Int) →
      (∀ k, k ≤ N + 1 →
        DateValid (prevDay^[k] today) ∧ DateValid (nextDay^[k] today)) →
      ∀ t, t ∈ db →
        ((t.date = isoformat (prevDay^[N] today) ∨
          t.date = isoformat (nextDay^[N] today)) →
            t ∈ get_tasks_window today days db) ∧
        ((t.date = isoformat (prevDay^[N + 1] today) ∨
          t.date = isoformat (nextDay^[N + 1] today)) →
            t ∉ get_tasks_window today days db)) := by
  have hmem : ∀ t, t ∈ get_tasks_window today days db ↔
      t ∈ db ∧
        strLe (isoformat (pyAddDays today (-days))) t.date = true ∧
        strLe t.date (isoformat (pyAddDays today days)) = true := by
    intro t
    simp only [get_tasks_window]
    rw [(List.mergeSort_perm _ _).mem_iff, List.mem_filter]
    simp [Bool.and_eq_true, and_assoc]
  refine ⟨hmem, ?sorted, ?gloss⟩
  case sorted =>
    simp only [get_tasks_window]
    exact List.sorted_mergeSort
      (fun (a b c : TaskRow) (h1 : strLe a.date b.date = true)
          (h2 : strLe b.date c.date = true) => strLe_bool_trans h1 h2)
      (fun (a b : TaskRow) => strLe_total a.date b.date) _
  case gloss =>
    intro N hdays hv t ht
    subst hdays
    have hfrom : pyAddDays today (-(N : Int)) = prevDay^[N] today := by
      by_cases hN : N = 0
      · subst hN
        simp [pyAddDays]
      · rw [pyAddDays, if_neg (by omega)]
        congr 1
        omega
    have hto : pyAddDays today ((N : Int)) = nextDay^[N] today := by
      rw [pyAddDays, if_pos (by omega)]
      congr 1
    have hvp : ∀ k, k ≤ N + 1 → DateValid (prevDay^[k] today) :=
      fun k hk => (hv k hk).1
    have hvn : ∀ k, k ≤ N + 1 → DateValid (nextDay^[k] today) :=
      fun k hk => (hv k hk).2
    have hfg : strLe (isoformat (prevDay^[N] today))
        (isoformat (nextDay^[N] today)) = true := by
      by_cases hN : N = 0
      · subst hN
        simp [strLe_refl]
      · have h1 : strLt (isoformat (prevDay^[N] today))
            (isoformat (prevDay^[0] today)) = true :=
          iso_prev_chain today (N + 1) hvp 0 N (by omega) (by omega)
        have h2 : strLt (isoformat (nextDay^[0] today))
            (isoformat (nextDay^[N] today)) = true :=
          iso_next_chain today (N + 1) hvn 0 N (by omega) (by omega)
        simp only [Function.iterate_zero_apply] at h1 h2
        simp only [strLe, Bool.or_eq_true]
        exact Or.inl (strLt_trans _ _ _ h1 h2)
    have hloP : strLt (isoformat (prevDay^[N + 1] today))
        (isoformat (prevDay^[N] today)) = true :=
      iso_prev_chain today (N + 1) hvp N (N + 1) (by omega) (by omega)
    have hhiP : strLt (isoformat (nextDay^[N] today))
        (isoformat (nextDay^[N + 1] today)) = true :=
      iso_next_chain today (N + 1) hvn N (N + 1) (by omega) (by omega)
    constructor
    · rintro (hd | hd)
      · rw [hmem, hfrom, hto, hd]
        exact ⟨ht, strLe_refl _, hfg⟩
      · rw [hmem, hfrom, hto, hd]
        exact ⟨ht, hfg, strLe_refl _⟩
    · rintro (hd | hd) hin
      · rw [hmem, hfrom, hto, hd] at hin
        have := hin.2.1
        rw [strLe_false_of_lt hloP] at this
        exact Bool.false_ne_true this
      · rw [hmem, hfrom, hto, hd] at hin
        have := hin.2.2
        rw [strLe_false_of_lt hhiP] at this
        exact Bool.false_ne_true this

def c7today : Date := ⟨2026, 3, 1⟩

def c7t1 : TaskRow := ⟨1, ("2026-02-27").toList, ("edge low").toList, []⟩

def c7t2 : TaskRow := ⟨2, ("2026-03-03").toList, ("edge high").toList, []⟩

def c7t3 : TaskRow := ⟨3, ("2026-02-26").toList, ("below").toList, []⟩

def c7t4 : TaskRow := ⟨4, ("2026-03-04").toList, ("above").toList, []⟩

def c7db : List TaskRow := [c7t3, c7t1, c7t4, c7t2]

theorem C7_tasks_window_witness :
    (c7t1 ∈ get_tasks_window c7today 2 c7db ∧
      c7t2 ∈ get_tasks_window c7today 2 c7db) ∧
    (c7t3 ∉ get_tasks_window c7today 2 c7db ∧
      c7t4 ∉ get_tasks_window c7today 2 c7db) := by
  have h := (C7_tasks_window c7today 2 c7db).2.2 2 rfl (by decide)
  refine ⟨⟨?A, ?B⟩, ?C, ?D⟩
  · exact (h c7t1 (by decide)).1 (Or.inl (by decide))
  · exact (h c7t2 (by decide)).1 (Or.inr (by decide))
  · exact (h c7t3 (by decide)).2 (Or.inl (by decide))
  · exact (h c7t4 (by decide)).2 (Or.inr (by decide))
